import Mathlib

/-!
# Hash commands: parse, validate, dispatch

A shallow embedding of `core/common/assets/js/api/extras/hash-commands.js`
(class `HashCommands`: `get`, `parseCommandArgs`, `run`, `runOnce`) together with
the two platform functions it calls, `decodeURI` and `JSON.parse`.

JavaScript strings are sequences of UTF-16 code units, and every string operation
of the source (`substr`, `split`, `+`) works on code units, so a string is modelled
as the list of its code units.
-/

set_option autoImplicit false

/-- A JavaScript string: the list of its UTF-16 code units. -/
abbrev JSString := List Nat

/-- The UTF-16 code units of a text, used to write JavaScript string values. -/
def utf16 (s : String) : JSString :=
  s.toList.flatMap fun c =>
    if c.toNat < 65536 then [c.toNat]
    else [55296 + (c.toNat - 65536) / 1024, 56320 + (c.toNat - 65536) % 1024]

/-- Code unit of `#`. -/
abbrev cHash : Nat := 35
/-- Code unit of `%`. -/
abbrev cPercent : Nat := 37
/-- Code unit of `&`. -/
abbrev cAmp : Nat := 38
/-- Code unit of `:`. -/
abbrev cColon : Nat := 58
/-- Code unit of `?`. -/
abbrev cQuestion : Nat := 63

/-- The method `String.prototype.split` with a one-code-unit separator: the pieces between
the occurrences of `sep`; a string without `sep` (the empty one included) is the
only piece. -/
def split (sep : Nat) : JSString → List JSString
  | [] => [[]]
  | c :: cs =>
    if c = sep then [] :: split sep cs
    else
      match split sep cs with
      | [] => [[c]]
      | piece :: pieces => (c :: piece) :: pieces

/-- The call `String.prototype.substr( 1 )`: the string without its first code unit. -/
def substr1 (s : JSString) : JSString := s.drop 1

/-- The method `Array.prototype.join` with a one-code-unit separator: the pieces written
one after the other with `sep` between them. -/
def joinWith (sep : Nat) : List JSString → JSString
  | [] => []
  | [t] => t
  | t :: rest => t ++ sep :: joinWith sep rest


/-! ## `decodeURI` (platform function, ECMAScript `Decode` with the reserved set
`;/?:@&=+$,#` preserved) -/

/-- Value of a hexadecimal digit code unit. -/
def hexValue (c : Nat) : Option Nat :=
  if 48 ≤ c ∧ c ≤ 57 then some (c - 48)
  else if 65 ≤ c ∧ c ≤ 70 then some (c - 55)
  else if 97 ≤ c ∧ c ≤ 102 then some (c - 87)
  else none

/-- ECMAScript `ParseHexOctet`: the byte written by two hexadecimal digits. -/
def parseHexOctet (h1 h2 : Nat) : Option Nat :=
  match hexValue h1, hexValue h2 with
  | some a, some b => some (16 * a + b)
  | _, _ => none

/-- The code units `decodeURI` never produces from an escape: `; / ? : @ & = + $ ,`
and `#`. -/
def reservedURISet : List Nat := [59, 47, 63, 58, 64, 38, 61, 43, 36, 44, 35]

/-- One step of the input of `Decode`: a plain code unit or a `%XX` escape with
its two digits and the byte they write. -/
inductive URIItem where
  | unit (c : Nat)
  | escape (h1 h2 octet : Nat)

/-- Reads the string left to right into plain code units and `%XX` escapes; a `%`
not followed by two hexadecimal digits is a `URIError` (`none`). -/
def uriItems : JSString → Option (List URIItem)
  | [] => some []
  | c :: rest =>
    if c = cPercent then
      match rest with
      | h1 :: h2 :: rest2 =>
        match parseHexOctet h1 h2, uriItems rest2 with
        | some b, some items => some (URIItem.escape h1 h2 b :: items)
        | _, _ => none
      | _ => none
    else
      match uriItems rest with
      | some items => some (URIItem.unit c :: items)
      | none => none

/-- A UTF-8 continuation byte, `10xxxxxx`. -/
def isContinuation (b : Nat) : Bool := decide (128 ≤ b ∧ b < 192)

/-- The code point of a two-byte UTF-8 sequence, if it is a valid encoding. -/
def utf8Decode2 (b1 b2 : Nat) : Option Nat :=
  let v := (b1 % 32) * 64 + b2 % 64
  if isContinuation b2 ∧ 128 ≤ v then some v else none

/-- The code point of a three-byte UTF-8 sequence, if it is a valid encoding
(not overlong, not a surrogate). -/
def utf8Decode3 (b1 b2 b3 : Nat) : Option Nat :=
  let v := (b1 % 16) * 4096 + (b2 % 64) * 64 + b3 % 64
  if isContinuation b2 ∧ isContinuation b3 ∧ 2048 ≤ v ∧ ¬ (55296 ≤ v ∧ v ≤ 57343) then some v
  else none

/-- The code point of a four-byte UTF-8 sequence, if it is a valid encoding
(not overlong, at most U+10FFFF). -/
def utf8Decode4 (b1 b2 b3 b4 : Nat) : Option Nat :=
  let v := (b1 % 8) * 262144 + (b2 % 64) * 4096 + (b3 % 64) * 64 + b4 % 64
  if isContinuation b2 ∧ isContinuation b3 ∧ isContinuation b4 ∧ 65536 ≤ v ∧ v ≤ 1114111
  then some v else none

/-- ECMAScript `CodePointToUTF16CodeUnits`. -/
def codePointToUTF16 (v : Nat) : JSString :=
  if v < 65536 then [v] else [55296 + (v - 65536) / 1024, 56320 + (v - 65536) % 1024]

/-- The main loop of `Decode`: an escape of an ASCII byte gives that code unit,
or stays as written when the code unit is reserved; an escape of a UTF-8 lead byte
takes the following escapes as its continuation bytes; anything else is a
`URIError` (`none`). -/
def decodeItems : List URIItem → Option JSString
  | [] => some []
  | URIItem.unit c :: rest =>
    match decodeItems rest with
    | some out => some (c :: out)
    | none => none
  | URIItem.escape h1 h2 b :: rest =>
    if b < 128 then
      match decodeItems rest with
      | some out => some ((if b ∈ reservedURISet then [cPercent, h1, h2] else [b]) ++ out)
      | none => none
    else if b < 192 then none
    else if b < 224 then
      match rest with
      | URIItem.escape _ _ b2 :: rest2 =>
        match utf8Decode2 b b2, decodeItems rest2 with
        | some v, some out => some (codePointToUTF16 v ++ out)
        | _, _ => none
      | _ => none
    else if b < 240 then
      match rest with
      | URIItem.escape _ _ b2 :: URIItem.escape _ _ b3 :: rest3 =>
        match utf8Decode3 b b2 b3, decodeItems rest3 with
        | some v, some out => some (codePointToUTF16 v ++ out)
        | _, _ => none
      | _ => none
    else if b < 248 then
      match rest with
      | URIItem.escape _ _ b2 :: URIItem.escape _ _ b3 :: URIItem.escape _ _ b4 :: rest4 =>
        match utf8Decode4 b b2 b3 b4, decodeItems rest4 with
        | some v, some out => some (codePointToUTF16 v ++ out)
        | _, _ => none
      | _ => none
    else none

/-- The platform function `decodeURI`; `none` stands for a thrown `URIError`. -/
def decodeURI (s : JSString) : Option JSString :=
  match uriItems s with
  | some items => decodeItems items
  | none => none

/-! ## `JSON.parse` (platform function, the JSON grammar of ECMA-404) -/

/-- A JSON number, kept as the exact decimal that was written:
`± coefficient × 10 ^ exponent`, with no factor ten left in the coefficient.
The rounding to a double that JavaScript applies is not modelled. -/
structure JSNumber where
  negative : Bool
  coefficient : Nat
  exponent : Int
  deriving DecidableEq, Repr

/-- The values `JSON.parse` returns. An object is the list of its members in
the order their keys first appeared; the order in which an engine enumerates
the keys (integer-like keys first) is not modelled. -/
inductive JSON where
  | null
  | bool (b : Bool)
  | number (n : JSNumber)
  | string (s : JSString)
  | array (elements : List JSON)
  | object (members : List (JSString × JSON))
  deriving Repr

/-- The empty object `{}`. -/
def JSON.empty : JSON := JSON.object []

/-- Whether a value is an object, a key-value mapping. -/
def JSON.isObject : JSON → Bool
  | JSON.object _ => true
  | _ => false

/-- Defining a member of an object under construction: a key seen before keeps
its place and takes the new value, a new key goes last. -/
def setMember (members : List (JSString × JSON)) (key : JSString) (v : JSON) :
    List (JSString × JSON) :=
  if members.any (fun m => decide (m.1 = key)) then
    members.map (fun m => if m.1 = key then (key, v) else m)
  else members ++ [(key, v)]

/-- The leading decimal digits of a string, as digit values, and what follows them. -/
def takeDigits : JSString → List Nat × JSString
  | [] => ([], [])
  | c :: cs =>
    if 48 ≤ c ∧ c ≤ 57 then ((c - 48) :: (takeDigits cs).1, (takeDigits cs).2)
    else ([], c :: cs)

/-- The natural number written by a list of decimal digits. -/
def natOfDigits (ds : List Nat) : Nat := ds.foldl (fun n d => 10 * n + d) 0

/-- The number `± ds × 10 ^ e` without the trailing zeros of `ds`. -/
def mkNumber (negative : Bool) (ds : List Nat) (e : Int) : JSNumber :=
  let zeros := (ds.reverse.takeWhile (fun d => decide (d = 0))).length
  if zeros = ds.length then ⟨negative, 0, 0⟩
  else ⟨negative, natOfDigits (ds.take (ds.length - zeros)), e + zeros⟩

/-- The optional fraction of a number: `.` and at least one digit. -/
def takeFraction (s : JSString) : Option (List Nat × JSString) :=
  match s with
  | 46 :: r => if (takeDigits r).1 = [] then none else some (takeDigits r)
  | _ => some ([], s)

/-- The optional exponent of a number, which must end the text: `e` or `E`, an
optional sign, and at least one digit. -/
def takeExponent (s : JSString) : Option Int :=
  match s with
  | [] => some 0
  | c :: r =>
    if c = 101 ∨ c = 69 then
      let signed : Bool × JSString :=
        match r with
        | 45 :: t => (true, t)
        | 43 :: t => (false, t)
        | _ => (false, r)
      let ds := takeDigits signed.2
      if ds.1 = [] ∨ ds.2 ≠ [] then none
      else some (if signed.1 then - (natOfDigits ds.1 : Int) else (natOfDigits ds.1 : Int))
    else none

/-- A whole text read as a JSON number:
`-? (0 | [1-9][0-9]*) (. [0-9]+)? ([eE] [+-]? [0-9]+)?`. -/
def parseNumber (text : JSString) : Option JSNumber :=
  let signed : Bool × JSString :=
    match text with
    | 45 :: r => (true, r)
    | _ => (false, text)
  let int := takeDigits signed.2
  if int.1 = [] ∨ (int.1.head? = some 0 ∧ int.1.length ≠ 1) then none
  else
    match takeFraction int.2 with
    | none => none
    | some frac =>
      match takeExponent frac.2 with
      | none => none
      | some e => some (mkNumber signed.1 (int.1 ++ frac.1) (e - frac.1.length))

/-- The tokens of a JSON text. -/
inductive Token where
  | beginArray
  | endArray
  | beginObject
  | endObject
  | colon
  | comma
  | string (s : JSString)
  | scalar (v : JSON)

/-- JSON whitespace: tab, line feed, carriage return, space. -/
def isJSONWhitespace (c : Nat) : Bool := decide (c = 9 ∨ c = 10 ∨ c = 13 ∨ c = 32)

/-- The six structural characters `[ ] { } : ,`. -/
def structuralToken (c : Nat) : Option Token :=
  if c = 91 then some Token.beginArray
  else if c = 93 then some Token.endArray
  else if c = 123 then some Token.beginObject
  else if c = 125 then some Token.endObject
  else if c = 58 then some Token.colon
  else if c = 44 then some Token.comma
  else none

/-- A maximal run of code units that are neither whitespace, structural nor a
quote is one of the literals `true`, `false`, `null`, or a number. -/
def classifyAtom (a : JSString) : Option Token :=
  if a = [116, 114, 117, 101] then some (Token.scalar (JSON.bool true))
  else if a = [102, 97, 108, 115, 101] then some (Token.scalar (JSON.bool false))
  else if a = [110, 117, 108, 108] then some (Token.scalar JSON.null)
  else
    match parseNumber a with
    | some n => some (Token.scalar (JSON.number n))
    | none => none

/-- The code unit written by a one-letter escape `\" \\ \/ \b \f \n \r \t`. -/
def escapeChar (c : Nat) : Option Nat :=
  if c = 34 then some 34
  else if c = 92 then some 92
  else if c = 47 then some 47
  else if c = 98 then some 8
  else if c = 102 then some 12
  else if c = 110 then some 10
  else if c = 114 then some 13
  else if c = 116 then some 9
  else none

/-- Where the tokenizer stands: between tokens, inside a literal or number, inside
a string, after a backslash, or inside the four digits of a `\u` escape. -/
inductive LexState where
  | start
  | atom (acc : JSString)
  | string (acc : JSString)
  | escape (acc : JSString)
  | unicode (acc : JSString) (hex : List Nat)

/-- A code unit read between tokens. -/
def lexStart (c : Nat) : LexState × List Token :=
  if isJSONWhitespace c then (LexState.start, [])
  else if c = 34 then (LexState.string [], [])
  else
    match structuralToken c with
    | some t => (LexState.start, [t])
    | none => (LexState.atom [c], [])

/-- One code unit of the tokenizer: the next state and the tokens completed. -/
def lexStep : LexState → Nat → Option (LexState × List Token)
  | LexState.start, c => some (lexStart c)
  | LexState.atom acc, c =>
    if isJSONWhitespace c ∨ c = 34 ∨ (structuralToken c).isSome then
      match classifyAtom acc with
      | some t => some ((lexStart c).1, t :: (lexStart c).2)
      | none => none
    else some (LexState.atom (acc ++ [c]), [])
  | LexState.string acc, c =>
    if c = 34 then some (LexState.start, [Token.string acc])
    else if c = 92 then some (LexState.escape acc, [])
    else if c < 32 then none
    else some (LexState.string (acc ++ [c]), [])
  | LexState.escape acc, c =>
    if c = 117 then some (LexState.unicode acc [], [])
    else
      match escapeChar c with
      | some e => some (LexState.string (acc ++ [e]), [])
      | none => none
  | LexState.unicode acc hex, c =>
    match hexValue c with
    | none => none
    | some h =>
      if hex.length = 3 then
        some (LexState.string (acc ++ [(hex ++ [h]).foldl (fun n d => 16 * n + d) 0]), [])
      else some (LexState.unicode acc (hex ++ [h]), [])

/-- The tokens of a text read from a given state; `none` when the text is not
made of JSON tokens. -/
def lexRun : LexState → JSString → Option (List Token)
  | LexState.start, [] => some []
  | LexState.atom acc, [] =>
    match classifyAtom acc with
    | some t => some [t]
    | none => none
  | _, [] => none
  | st, c :: cs =>
    match lexStep st c with
    | none => none
    | some next =>
      match lexRun next.1 cs with
      | none => none
      | some ts => some (next.2 ++ ts)

/-- An enclosing construct that waits for a value: an array with the elements
read so far, an object with the members read so far, or a member key whose value
is being read. -/
inductive Frame where
  | array (elements : List JSON)
  | object (members : List (JSString × JSON))
  | member (key : JSString)

/-- What the grammar allows next. -/
inductive Expect where
  | value
  | valueOrEnd
  | keyOrEnd
  | key
  | colon (key : JSString)
  | separatorOrEnd
  | finished (result : JSON)

/-- State of the parser: the open constructs, innermost first, and what may
come next. -/
structure ParseState where
  stack : List Frame
  expect : Expect

/-- A value has been read: it is the whole text, the next element of the
innermost array, or the value of the pending member. -/
def complete (stack : List Frame) (v : JSON) : Option ParseState :=
  match stack with
  | [] => some ⟨[], Expect.finished v⟩
  | Frame.array xs :: st => some ⟨Frame.array (xs ++ [v]) :: st, Expect.separatorOrEnd⟩
  | Frame.member k :: Frame.object ms :: st =>
    some ⟨Frame.object (setMember ms k v) :: st, Expect.separatorOrEnd⟩
  | _ => none

/-- A token where a value may start. -/
def beginValue (stack : List Frame) : Token → Option ParseState
  | Token.scalar v => complete stack v
  | Token.string x => complete stack (JSON.string x)
  | Token.beginArray => some ⟨Frame.array [] :: stack, Expect.valueOrEnd⟩
  | Token.beginObject => some ⟨Frame.object [] :: stack, Expect.keyOrEnd⟩
  | _ => none

/-- The innermost array ends. -/
def closeArray : List Frame → Option ParseState
  | Frame.array xs :: st => complete st (JSON.array xs)
  | _ => none

/-- The innermost object ends. -/
def closeObject : List Frame → Option ParseState
  | Frame.object ms :: st => complete st (JSON.object ms)
  | _ => none

/-- One token of the parser. -/
def parseStep (s : ParseState) (t : Token) : Option ParseState :=
  match s.expect, t with
  | Expect.value, t => beginValue s.stack t
  | Expect.valueOrEnd, Token.endArray => closeArray s.stack
  | Expect.valueOrEnd, t => beginValue s.stack t
  | Expect.keyOrEnd, Token.endObject => closeObject s.stack
  | Expect.keyOrEnd, Token.string k => some ⟨s.stack, Expect.colon k⟩
  | Expect.key, Token.string k => some ⟨s.stack, Expect.colon k⟩
  | Expect.colon k, Token.colon => some ⟨Frame.member k :: s.stack, Expect.value⟩
  | Expect.separatorOrEnd, Token.comma =>
    match s.stack with
    | Frame.array _ :: _ => some ⟨s.stack, Expect.value⟩
    | Frame.object _ :: _ => some ⟨s.stack, Expect.key⟩
    | _ => none
  | Expect.separatorOrEnd, Token.endArray => closeArray s.stack
  | Expect.separatorOrEnd, Token.endObject => closeObject s.stack
  | _, _ => none

/-- The parser run over a list of tokens. -/
def parseTokens : ParseState → List Token → Option JSON
  | ⟨_, Expect.finished v⟩, [] => some v
  | _, [] => none
  | s, t :: ts =>
    match parseStep s t with
    | none => none
    | some next => parseTokens next ts

/-- The platform function `JSON.parse`; `none` stands for a thrown `SyntaxError`. -/
def JSON.parse (text : JSString) : Option JSON :=
  match lexRun LexState.start text with
  | none => none
  | some tokens => parseTokens ⟨[], Expect.value⟩ tokens

/-! ## The class `HashCommands` -/

/-- The `HashCommand` typedef: `method`, `command`, `args`. -/
structure HashCommand where
  method : JSString
  command : JSString
  args : JSON

/-- The settled result of a runner: the world it leaves, and its failure when
the result is a rejection (or a throw). -/
structure Settled (σ ε : Type) where
  world : σ
  failure : Option ε

/-- What `getCommandClass( command ).getInfo()` gives: the truthiness of its
`isSafe` flag. -/
structure CommandInfo where
  isSafe : Bool

/-- The global `$e` as far as the class uses it: the runners `$e.run` and
`$e.route`, and the command registry `$e.commands.getCommandClass`, which is read
from the world at the time of the call. `σ` is the state of the world outside the
class, `ε` the failures of runners. -/
structure Env (σ ε : Type) where
  run : JSString → JSON → σ → Settled σ ε
  route : JSString → JSON → σ → Settled σ ε
  getCommandClass : JSString → σ → Option CommandInfo

/-- The two own keys of `dispatchersList`: `'e:run'` and `'e:route'`. -/
inductive Entry where
  | eRun
  | eRoute
  deriving DecidableEq, Repr

/-- The result of the property read `this.dispatchersList[ method ]`: an entry of
the table, a member inherited from `Object.prototype` (truthy, with neither
`isSafe` nor `runner`), or `undefined`. -/
inductive Property where
  | own (e : Entry)
  | inherited
  | undefined
  deriving DecidableEq, Repr

/-- The property names every plain object inherits from `Object.prototype`. -/
def objectPrototypeKeys : List JSString :=
  [utf16 "constructor", utf16 "hasOwnProperty", utf16 "isPrototypeOf",
   utf16 "propertyIsEnumerable", utf16 "toLocaleString", utf16 "toString", utf16 "valueOf",
   utf16 "__proto__", utf16 "__defineGetter__", utf16 "__defineSetter__",
   utf16 "__lookupGetter__", utf16 "__lookupSetter__"]

namespace HashCommands

/-- The table `dispatchersList`, read at a key. -/
def dispatchersList (method : JSString) : Property :=
  if method = utf16 "e:run" then Property.own Entry.eRun
  else if method = utf16 "e:route" then Property.own Entry.eRoute
  else if method ∈ objectPrototypeKeys then Property.inherited
  else Property.undefined

/-- The `runner` of a table entry. -/
def runner {σ ε : Type} (env : Env σ ε) : Entry → JSString → JSON → σ → Settled σ ε
  | Entry.eRun => env.run
  | Entry.eRoute => env.route

/-- The `isSafe` of a table entry:
`$e.commands.getCommandClass( command )?.getInfo().isSafe` for `'e:run'`, and
`true` for `'e:route'`. -/
def isSafe {σ ε : Type} (env : Env σ ε) : Entry → JSString → σ → Bool
  | Entry.eRun => fun command w =>
    match env.getCommandClass command w with
    | some info => info.isSafe
    | none => false
  | Entry.eRoute => fun _ _ => true

/-- Function `parseCommandArgs( rawArgs )`: `JSON.parse( decodeURI( rawArgs || '{}' ) )`
inside a `try`, and `{}` from the `catch`. `none` is `undefined`. The warning
written by `consoleWarn` in the `catch` does not change the value returned and is
left out. -/
def parseCommandArgs (rawArgs : Option JSString) : JSON :=
  let text : JSString :=
    match rawArgs with
    | none => utf16 "\x7b\x7d"
    | some raw => if raw = [] then utf16 "\x7b\x7d" else raw
  match decodeURI text with
  | none => JSON.empty
  | some decoded =>
    match JSON.parse decoded with
    | none => JSON.empty
    | some value => value

/-- The first element of `hashItem.split( '?' )`, bound to `rawCommand`. -/
def rawCommand (hashItem : JSString) : JSString := (split cQuestion hashItem).headD []

/-- The second element of `hashItem.split( '?' )`, bound to `rawArgs`; `none`
(`undefined`) when the item has no `?`. -/
def rawArgs (hashItem : JSString) : Option JSString := (split cQuestion hashItem).tail.head?

/-- The body of the `forEach` callback of `get`: the commands one item pushes
to `result`. -/
def getItem (hashItem : JSString) : List HashCommand :=
  match split cColon (rawCommand hashItem) with
  | [part0, part1, part2] =>
    match dispatchersList (part0 ++ [cColon] ++ part1) with
    | Property.undefined => []
    | _ => [⟨part0 ++ [cColon] ++ part1, part2, parseCommandArgs (rawArgs hashItem)⟩]
  | _ => []

/-- Function `get( hash )`. -/
def get (hash : JSString) : List HashCommand :=
  if hash = [] then []
  else (split cAmp (substr1 hash)).flatMap getItem

/-- A call of a runner: the table entry it belongs to, its two arguments, the
world when it was started and the world when its result settled. -/
structure Invocation (σ : Type) where
  entry : Entry
  command : JSString
  args : JSON
  started : σ
  settled : σ

/-- The ways `run` is rejected: with `new Error( message )`, with a `TypeError`
of the engine, or with the failure of a runner. -/
inductive RunError (ε : Type) where
  | error (message : JSString)
  | typeError
  | runner (failure : ε)

/-- What a call of `run` did: the runner calls in the order they were made, the
world it leaves, and the rejection if the promise is rejected. -/
structure Outcome (σ ε : Type) where
  calls : List (Invocation σ)
  world : σ
  failure : Option (RunError ε)

/-- The first loop of `run`, "to allow validate the run first": the rejection it
returns, or `none` when it runs to its end. -/
def validate {σ ε : Type} (env : Env σ ε) (w : σ) : List HashCommand → Option (RunError ε)
  | [] => none
  | hashCommand :: rest =>
    match dispatchersList hashCommand.method with
    | Property.undefined =>
      some (RunError.error
        (utf16 "No dispatcher found for the command: `" ++ hashCommand.command ++ utf16 "`."))
    | Property.inherited => some RunError.typeError
    | Property.own e =>
      if isSafe env e hashCommand.command w then validate env w rest
      else
        some (RunError.error
          (utf16 "Attempting to run unsafe or non exist command: `" ++ hashCommand.command
            ++ utf16 "`."))

/-- The second loop of `run`: each runner is called and awaited before the next
one; a runner that fails ends the loop. -/
def dispatch {σ ε : Type} (env : Env σ ε) : List HashCommand → σ → Outcome σ ε
  | [], w => ⟨[], w, none⟩
  | hashCommand :: rest, w =>
    match dispatchersList hashCommand.method with
    | Property.own e =>
      let result := runner env e hashCommand.command hashCommand.args w
      let call : Invocation σ := ⟨e, hashCommand.command, hashCommand.args, w, result.world⟩
      match result.failure with
      | some failure => ⟨[call], result.world, some (RunError.runner failure)⟩
      | none =>
        let later := dispatch env rest result.world
        ⟨call :: later.calls, later.world, later.failure⟩
    | _ => ⟨[], w, some RunError.typeError⟩

/-- Function `run( commands )`. -/
def run {σ ε : Type} (env : Env σ ε) (commands : List HashCommand) (w : σ) : Outcome σ ε :=
  match validate env w commands with
  | some rejection => ⟨[], w, some rejection⟩
  | none => dispatch env commands w

end HashCommands

/-- The state of an instance of the class: the field `commands`. -/
structure HashCommands where
  commands : List HashCommand

namespace HashCommands

/-- The constructor: `this.commands = this.get()`, with `location.hash` given. -/
def new (locationHash : JSString) : HashCommands := ⟨get locationHash⟩

/-- Function `runOnce()`: `run( this.commands )`, and `this.commands = []` in the
`then` of its promise. Gives the instance afterwards and what `run` did. -/
def runOnce {σ ε : Type} (env : Env σ ε) (self : HashCommands) (w : σ) :
    HashCommands × Outcome σ ε :=
  match (run env self.commands w).failure with
  | none => (⟨[]⟩, run env self.commands w)
  | some _ => (self, run env self.commands w)

end HashCommands

/-! ## Vocabulary of the statements -/

namespace HashCommands

/-- Every runner called for the commands succeeds, each one started in the world
its predecessor left. -/
def runnersSucceed {σ ε : Type} (env : Env σ ε) : List HashCommand → σ → Bool
  | [], _ => true
  | hashCommand :: rest, w =>
    match dispatchersList hashCommand.method with
    | Property.own e =>
      (runner env e hashCommand.command hashCommand.args w).failure.isNone
        && runnersSucceed env rest (runner env e hashCommand.command hashCommand.args w).world
    | _ => true

/-- The call `i` is the call `run` makes for the command `c`: the runner of the
table entry of its method, with its command and its args, and it settles in the
world that runner leaves. -/
def IsCallOf {σ ε : Type} (env : Env σ ε) (c : HashCommand) (i : Invocation σ) : Prop :=
  dispatchersList c.method = Property.own i.entry ∧ i.command = c.command ∧ i.args = c.args
    ∧ i.settled = (runner env i.entry i.command i.args i.started).world

/-- The calls were made one after the other from the world `w` to the world `w2`:
each one started in the world in which the one before it settled. -/
def Chained {σ : Type} : σ → List (Invocation σ) → σ → Prop
  | w, [], w2 => w = w2
  | w, i :: rest, w2 => i.started = w ∧ Chained i.settled rest w2

/-- A sample world: the commands the runners have been called with, oldest first. -/
abbrev SampleWorld := List JSString

/-- A sample `$e`: the only registered commands are `foo`, safe, and `bar`, not
safe; both runners record their command in the world, and fail for the command
`boom`. -/
def sampleEnv : Env SampleWorld Unit where
  run := fun command _ w => ⟨w ++ [command], if command = utf16 "boom" then some () else none⟩
  route := fun command _ w => ⟨w ++ [command], if command = utf16 "boom" then some () else none⟩
  getCommandClass := fun command _ =>
    if command = utf16 "foo" then some ⟨true⟩
    else if command = utf16 "bar" then some ⟨false⟩
    else none

/-- The calls of `isSafe` the first loop of `run` makes, in order, each with the
table entry and the command name it is given: one for every command up to the
first one that is rejected. -/
def isSafeCalls {σ ε : Type} (env : Env σ ε) (w : σ) : List HashCommand → List (Entry × JSString)
  | [] => []
  | hashCommand :: rest =>
    match dispatchersList hashCommand.method with
    | Property.own e =>
      (e, hashCommand.command)
        :: (if isSafe env e hashCommand.command w then isSafeCalls env w rest else [])
    | _ => []

/-- A call of a method of the class; `run none` is `run()`, where `commands` is
`this.commands`. -/
inductive Operation where
  | get (hash : JSString)
  | run (commands : Option (List HashCommand))
  | runOnce

/-- What a method of the class can read and write: the instance `this`, first,
and the world outside the class, second. -/
abbrev Store (σ : Type) := HashCommands × σ

/-- The method `parseCommandArgs( rawArgs )` statement by statement, with the
store passed through: the value returned and the store it leaves. -/
def parseCommandArgsMethod {σ : Type} (rawArgs : Option JSString) (st : Store σ) :
    JSON × Store σ :=
  let text : JSString :=
    match rawArgs with
    | none => utf16 "\x7b\x7d"
    | some raw => if raw = [] then utf16 "\x7b\x7d" else raw
  match decodeURI text with
  | none => (JSON.empty, st)
  | some decoded =>
    match JSON.parse decoded with
    | none => (JSON.empty, st)
    | some value => (value, st)

/-- The `forEach` callback of `get` as it is written, with the local array
`result` and the store passed through: `result.push` adds the command at the
end, `this.parseCommandArgs` is called as a method. -/
def getItemMethod {σ : Type} (hashItem : JSString) (result : List HashCommand)
    (st : Store σ) : List HashCommand × Store σ :=
  match split cColon (rawCommand hashItem) with
  | [part0, part1, part2] =>
    match dispatchersList (part0 ++ [cColon] ++ part1) with
    | Property.undefined => (result, st)
    | _ =>
      (result ++ [⟨part0 ++ [cColon] ++ part1, part2,
          (parseCommandArgsMethod (rawArgs hashItem) st).1⟩],
        (parseCommandArgsMethod (rawArgs hashItem) st).2)
  | _ => (result, st)

/-- The call `hashList.forEach( ... )` of `get`: the callback on each item in
turn, each one working on the `result` and the store the one before it left. -/
def forEachItem {σ : Type} : List JSString → List HashCommand → Store σ →
    List HashCommand × Store σ
  | [], result, st => (result, st)
  | hashItem :: rest, result, st =>
    forEachItem rest (getItemMethod hashItem result st).1 (getItemMethod hashItem result st).2

/-- The method `get( hash )` statement by statement, with the store passed
through: `result` starts empty and is returned after the `forEach`. -/
def getMethod {σ : Type} (hash : JSString) (st : Store σ) : List HashCommand × Store σ :=
  if hash = [] then ([], st)
  else forEachItem (split cAmp (substr1 hash)) [] st

/-- The first loop of the method `run` with the store passed through: `isSafe`
reads the world of the store. -/
def validateLoop {σ ε : Type} (env : Env σ ε) : List HashCommand → Store σ →
    Option (RunError ε) × Store σ
  | [], st => (none, st)
  | hashCommand :: rest, st =>
    match dispatchersList hashCommand.method with
    | Property.undefined =>
      (some (RunError.error
        (utf16 "No dispatcher found for the command: `" ++ hashCommand.command ++ utf16 "`.")),
        st)
    | Property.inherited => (some RunError.typeError, st)
    | Property.own e =>
      if isSafe env e hashCommand.command st.2 then validateLoop env rest st
      else
        (some (RunError.error
          (utf16 "Attempting to run unsafe or non exist command: `" ++ hashCommand.command
            ++ utf16 "`.")), st)

/-- The second loop of the method `run` with the store passed through: the
calls made and the rejection, if any; a runner is started in the world of the
store and the world in which it settles replaces it. -/
def dispatchLoop {σ ε : Type} (env : Env σ ε) : List HashCommand → Store σ →
    (List (Invocation σ) × Option (RunError ε)) × Store σ
  | [], st => (([], none), st)
  | hashCommand :: rest, st =>
    match dispatchersList hashCommand.method with
    | Property.own e =>
      let result := runner env e hashCommand.command hashCommand.args st.2
      let call : Invocation σ := ⟨e, hashCommand.command, hashCommand.args, st.2, result.world⟩
      match result.failure with
      | some failure => (([call], some (RunError.runner failure)), (st.1, result.world))
      | none =>
        let later := dispatchLoop env rest (st.1, result.world)
        ((call :: later.1.1, later.1.2), later.2)
    | _ => (([], some RunError.typeError), st)

/-- The method `run( commands = this.commands )` statement by statement, with the
store passed through; `none` is the call without argument. -/
def runMethod {σ ε : Type} (env : Env σ ε) (commands : Option (List HashCommand))
    (st : Store σ) : Outcome σ ε × Store σ :=
  let list : List HashCommand :=
    match commands with
    | some given => given
    | none => st.1.commands
  match (validateLoop env list st).1 with
  | some rejection =>
    (⟨[], (validateLoop env list st).2.2, some rejection⟩, (validateLoop env list st).2)
  | none =>
    (⟨(dispatchLoop env list (validateLoop env list st).2).1.1,
        (dispatchLoop env list (validateLoop env list st).2).2.2,
        (dispatchLoop env list (validateLoop env list st).2).1.2⟩,
      (dispatchLoop env list (validateLoop env list st).2).2)

/-- The method `runOnce()` statement by statement, with the store passed
through: `this.run( this.commands )`, and the assignment `this.commands = []` of
the `then` when the promise resolves. -/
def runOnceMethod {σ ε : Type} (env : Env σ ε) (st : Store σ) : Outcome σ ε × Store σ :=
  match (runMethod env (some st.1.commands) st).1.failure with
  | none =>
    ((runMethod env (some st.1.commands) st).1,
      (⟨[]⟩, (runMethod env (some st.1.commands) st).2.2))
  | some _ => runMethod env (some st.1.commands) st

/-- The store after a call of a method. -/
def perform {σ ε : Type} (env : Env σ ε) : Operation → Store σ → Store σ
  | Operation.get hash, st => (getMethod hash st).2
  | Operation.run commands, st => (runMethod env commands st).2
  | Operation.runOnce, st => (runOnceMethod env st).2

/-- A sample `$e` whose registry changes with the world: the world is the list
of the commands the `e:run` runner has run, and a command is safe until it has
been run once. -/
def oneShotEnv : Env SampleWorld Unit where
  run := fun command _ w => ⟨w ++ [command], none⟩
  route := fun _ _ w => ⟨w, none⟩
  getCommandClass := fun command w => some ⟨decide (command ∉ w)⟩

end HashCommands

/-! ## Validation and dispatch -/

namespace HashCommands

theorem validate_eq_none_iff {σ ε : Type} (env : Env σ ε) (w : σ) (commands : List HashCommand) :
    validate env w commands = none ↔
      ∀ c ∈ commands, ∃ e, dispatchersList c.method = Property.own e
        ∧ isSafe env e c.command w = true := by
  induction commands with
  | nil => simp [validate]
  | cons c rest ih =>
    cases h : dispatchersList c.method with
    | undefined => simp [validate, h]
    | inherited => simp [validate, h]
    | own e =>
      by_cases hs : isSafe env e c.command w = true
      · simp [validate, h, hs, ih]
      · simp [validate, h, hs]

theorem run_of_validate_some {σ ε : Type} (env : Env σ ε) (w : σ)
    (commands : List HashCommand) (r : RunError ε) (h : validate env w commands = some r) :
    run env commands w = ⟨[], w, some r⟩ := by
  simp [run, h]

theorem run_of_validate_none {σ ε : Type} (env : Env σ ε) (w : σ)
    (commands : List HashCommand) (h : validate env w commands = none) :
    run env commands w = dispatch env commands w := by
  simp [run, h]

theorem dispatch_of_succeed {σ ε : Type} (env : Env σ ε) (commands : List HashCommand) :
    ∀ w : σ, (∀ c ∈ commands, ∃ e, dispatchersList c.method = Property.own e) →
      runnersSucceed env commands w = true →
      (dispatch env commands w).failure = none
        ∧ List.Forall₂ (IsCallOf env) commands (dispatch env commands w).calls
        ∧ Chained w (dispatch env commands w).calls (dispatch env commands w).world := by
  induction commands with
  | nil => intro w _ _; simp [dispatch, Chained]
  | cons c rest ih =>
    intro w hk hs
    obtain ⟨e, he⟩ := hk c (List.mem_cons_self _ _)
    simp only [runnersSucceed, he, Bool.and_eq_true, Option.isNone_iff_eq_none] at hs
    obtain ⟨h1, h2⟩ := hs
    obtain ⟨ih1, ih2, ih3⟩ := ih _ (fun c2 hc2 => hk c2 (List.mem_cons_of_mem _ hc2)) h2
    simp only [dispatch, he, h1]
    exact ⟨ih1, List.Forall₂.cons ⟨he, rfl, rfl, rfl⟩ ih2, rfl, ih3⟩

end HashCommands

namespace HashCommands

theorem dispatch_fail_fast {σ ε : Type} (env : Env σ ε) (pre : List HashCommand)
    (c : HashCommand) (post : List HashCommand) (e : Entry) (f : ε)
    (he : dispatchersList c.method = Property.own e) :
    ∀ w : σ, (∀ x ∈ pre, ∃ e2, dispatchersList x.method = Property.own e2) →
      runnersSucceed env pre w = true →
      (runner env e c.command c.args (dispatch env pre w).world).failure = some f →
      (dispatch env (pre ++ c :: post) w).failure = some (RunError.runner f)
        ∧ List.Forall₂ (IsCallOf env) (pre ++ [c]) (dispatch env (pre ++ c :: post) w).calls
        ∧ Chained w (dispatch env (pre ++ c :: post) w).calls
            (dispatch env (pre ++ c :: post) w).world := by
  induction pre with
  | nil =>
    intro w _ _ hf
    simp only [dispatch] at hf
    simp only [List.nil_append, dispatch, he, hf]
    exact ⟨trivial, List.Forall₂.cons ⟨he, rfl, rfl, rfl⟩ List.Forall₂.nil, rfl, rfl⟩
  | cons x rest ih =>
    intro w hk hs hf
    obtain ⟨e2, he2⟩ := hk x (List.mem_cons_self _ _)
    simp only [runnersSucceed, he2, Bool.and_eq_true, Option.isNone_iff_eq_none] at hs
    obtain ⟨h1, h2⟩ := hs
    simp only [dispatch, he2, h1] at hf
    obtain ⟨ih1, ih2, ih3⟩ :=
      ih _ (fun y hy => hk y (List.mem_cons_of_mem _ hy)) h2 hf
    simp only [List.cons_append, dispatch, he2, h1]
    exact ⟨ih1, List.Forall₂.cons ⟨he2, rfl, rfl, rfl⟩ ih2, rfl, ih3⟩

/-- C1: validation is all-or-nothing. When some command of the sequence has a
method that is not a key of `dispatchersList`, or is not safe for its dispatcher,
`run` is rejected, no runner is called and the world is as before; and whenever
`run` calls a runner, every command of the sequence had a known method and was
safe in the world in which validation ran. -/
theorem C1_validation_all_or_nothing {σ ε : Type} (env : Env σ ε)
    (commands : List HashCommand) (w : σ) :
    ((∃ c ∈ commands, ∀ e, dispatchersList c.method = Property.own e →
          isSafe env e c.command w = false) →
        (run env commands w).failure.isSome = true ∧ (run env commands w).calls = []
          ∧ (run env commands w).world = w)
      ∧ ((run env commands w).calls ≠ [] →
        ∀ c ∈ commands, ∃ e, dispatchersList c.method = Property.own e
          ∧ isSafe env e c.command w = true) := by
  constructor
  · rintro ⟨c, hc, hbad⟩
    cases hv : validate env w commands with
    | none =>
      obtain ⟨e, he, hsafe⟩ := (validate_eq_none_iff env w commands).1 hv c hc
      rw [hbad e he] at hsafe
      exact absurd hsafe (by decide)
    | some r => simp [run_of_validate_some env w commands r hv]
  · intro hcalls
    cases hv : validate env w commands with
    | none => exact (validate_eq_none_iff env w commands).1 hv
    | some r =>
      rw [run_of_validate_some env w commands r hv] at hcalls
      exact absurd rfl hcalls

/-- C2: sequential in-order dispatch. For a sequence that passes validation and
whose runners all succeed, `run` resolves, its calls are one per command in the
order of the sequence, each the runner of the entry of that command's method with
that command's `command` and `args`, and each call is started in the world in
which the call before it settled. -/
theorem C2_sequential_dispatch {σ ε : Type} (env : Env σ ε) (commands : List HashCommand)
    (w : σ) (hv : validate env w commands = none)
    (hs : runnersSucceed env commands w = true) :
    (run env commands w).failure = none
      ∧ List.Forall₂ (IsCallOf env) commands (run env commands w).calls
      ∧ Chained w (run env commands w).calls (run env commands w).world := by
  rw [run_of_validate_none env w commands hv]
  refine dispatch_of_succeed env commands w ?_ hs
  intro c hc
  obtain ⟨e, he, _⟩ := (validate_eq_none_iff env w commands).1 hv c hc
  exact ⟨e, he⟩

/-- C3: fail-fast on runner failure. In a validated sequence `pre ++ c :: post`
where the runners of `pre` succeed and the runner of `c`, started in the world they
leave, fails with `f`, `run` is rejected with `f`, and its calls are exactly those
of `pre ++ [c]`, once each and in order: no runner of `post` is called. -/
theorem C3_fail_fast {σ ε : Type} (env : Env σ ε) (pre : List HashCommand) (c : HashCommand)
    (post : List HashCommand) (w : σ) (e : Entry) (f : ε)
    (hv : validate env w (pre ++ c :: post) = none)
    (hpre : runnersSucceed env pre w = true)
    (he : dispatchersList c.method = Property.own e)
    (hf : (runner env e c.command c.args (run env pre w).world).failure = some f) :
    (run env (pre ++ c :: post) w).failure = some (RunError.runner f)
      ∧ List.Forall₂ (IsCallOf env) (pre ++ [c]) (run env (pre ++ c :: post) w).calls
      ∧ Chained w (run env (pre ++ c :: post) w).calls (run env (pre ++ c :: post) w).world := by
  have hall := (validate_eq_none_iff env w (pre ++ c :: post)).1 hv
  have hvpre : validate env w pre = none :=
    (validate_eq_none_iff env w pre).2 (fun x hx => hall x (List.mem_append_left _ hx))
  rw [run_of_validate_none env w pre hvpre] at hf
  rw [run_of_validate_none env w _ hv]
  refine dispatch_fail_fast env pre c post e f he w ?_ hpre hf
  intro x hx
  obtain ⟨e2, he2, _⟩ := hall x (List.mem_append_left _ hx)
  exact ⟨e2, he2⟩

end HashCommands

/-! ## Parsing -/

theorem split_ne_nil (sep : Nat) (s : JSString) : split sep s ≠ [] := by
  induction s with
  | nil => simp [split]
  | cons c cs ih =>
    by_cases h : c = sep
    · simp [split, h]
    · cases hs : split sep cs with
      | nil => exact absurd hs ih
      | cons piece pieces => simp [split, h, hs]

theorem split_of_not_mem (sep : Nat) (s : JSString) (h : sep ∉ s) : split sep s = [s] := by
  induction s with
  | nil => rfl
  | cons c cs ih =>
    have hc : c ≠ sep := fun hc => h (hc ▸ List.mem_cons_self _ _)
    have hcs : sep ∉ cs := fun hm => h (List.mem_cons_of_mem _ hm)
    simp [split, hc, ih hcs]

theorem split_append_sep (sep : Nat) (a b : JSString) :
    split sep (a ++ sep :: b) = split sep a ++ split sep b := by
  induction a with
  | nil => simp [split]
  | cons c cs ih =>
    by_cases h : c = sep
    · simp [split, h, ih]
    · cases hs : split sep cs with
      | nil => exact absurd hs (split_ne_nil sep cs)
      | cons piece pieces => simp [split, h, ih, hs]

theorem split_joinWith (sep : Nat) (ts : List JSString) (hts : ∀ t ∈ ts, sep ∉ t)
    (hne : ts ≠ []) : split sep (joinWith sep ts) = ts := by
  induction ts with
  | nil => exact absurd rfl hne
  | cons t rest ih =>
    cases rest with
    | nil => simpa [joinWith] using split_of_not_mem sep t (hts t (List.mem_cons_self _ _))
    | cons t2 rest2 =>
      have h1 := split_of_not_mem sep t (hts t (List.mem_cons_self _ _))
      have h2 := ih (fun x hx => hts x (List.mem_cons_of_mem _ hx)) (by simp)
      simp only [joinWith] at h2 ⊢
      rw [split_append_sep, h1, h2]
      rfl

namespace HashCommands

theorem get_cons (c0 : Nat) (s : JSString) :
    get (c0 :: s) = (split cAmp s).flatMap getItem := by
  simp [get, substr1]

theorem getItem_nil : getItem [] = [] := by rfl

theorem get_joinWith (c0 : Nat) (ts : List JSString) (hts : ∀ t ∈ ts, cAmp ∉ t) :
    get (c0 :: joinWith cAmp ts) = ts.flatMap getItem := by
  rw [get_cons]
  cases ts with
  | nil => rfl
  | cons t rest => rw [split_joinWith cAmp (t :: rest) hts (by simp)]

theorem parseCommandArgs_none : parseCommandArgs none = JSON.empty := by rfl

theorem rawCommand_of_not_mem (s : JSString) (h : cQuestion ∉ s) : rawCommand s = s := by
  simp [rawCommand, split_of_not_mem cQuestion s h]

theorem rawArgs_of_not_mem (s : JSString) (h : cQuestion ∉ s) : rawArgs s = none := by
  simp [rawArgs, split_of_not_mem cQuestion s h]

/-- C4: for `a`, `b`, `c` free of `:`, `&` and `?` with `a:b` a key of the
dispatcher table, `get` of `#a:b:c` is exactly one command, with method `a:b`,
command `c` and args `{}`. -/
theorem C4_get_well_formed (a b c : JSString) (e : Entry)
    (ha : cColon ∉ a ∧ cAmp ∉ a ∧ cQuestion ∉ a)
    (hb : cColon ∉ b ∧ cAmp ∉ b ∧ cQuestion ∉ b)
    (hc : cColon ∉ c ∧ cAmp ∉ c ∧ cQuestion ∉ c)
    (hkey : dispatchersList (a ++ [cColon] ++ b) = Property.own e) :
    get (cHash :: (a ++ [cColon] ++ b ++ [cColon] ++ c))
      = [⟨a ++ [cColon] ++ b, c, JSON.empty⟩] := by
  have hamp : cAmp ∉ a ++ [cColon] ++ b ++ [cColon] ++ c := by
    simp [ha.2.1, hb.2.1, hc.2.1]
  have hq : cQuestion ∉ a ++ [cColon] ++ b ++ [cColon] ++ c := by
    simp [ha.2.2, hb.2.2, hc.2.2]
  have hsplit : split cColon (a ++ [cColon] ++ b ++ [cColon] ++ c) = [a, b, c] := by
    have h1 : a ++ [cColon] ++ b ++ [cColon] ++ c = a ++ cColon :: (b ++ cColon :: c) := by simp
    rw [h1, split_append_sep, split_append_sep, split_of_not_mem _ a ha.1,
      split_of_not_mem _ b hb.1, split_of_not_mem _ c hc.1]
    rfl
  rw [get_cons, split_of_not_mem cAmp _ hamp, List.flatMap_singleton]
  simp only [getItem, rawCommand_of_not_mem _ hq, rawArgs_of_not_mem _ hq, hsplit, hkey,
    parseCommandArgs_none]

/-- C5: in a hash made of `&`-free tokens, a token whose raw-command part (the
text before its `?`) does not split on `:` into exactly three segments
contributes no command, and `get` gives the commands of the other tokens in the
same order, exactly as for the hash without that token. -/
theorem C5_malformed_token_dropped (c0 : Nat) (pre : List JSString) (t : JSString)
    (post : List JSString) (hts : ∀ x ∈ pre ++ t :: post, cAmp ∉ x)
    (hbad : (split cColon (rawCommand t)).length ≠ 3) :
    getItem t = []
      ∧ get (c0 :: joinWith cAmp (pre ++ t :: post))
          = pre.flatMap getItem ++ post.flatMap getItem
      ∧ get (c0 :: joinWith cAmp (pre ++ t :: post)) = get (c0 :: joinWith cAmp (pre ++ post)) := by
  have ht : getItem t = [] := by
    unfold getItem
    split
    · next p0 p1 p2 h => rw [h] at hbad; exact absurd rfl hbad
    · rfl
  have hts2 : ∀ x ∈ pre ++ post, cAmp ∉ x := by
    intro x hx
    rcases List.mem_append.1 hx with h | h
    · exact hts x (List.mem_append_left _ h)
    · exact hts x (List.mem_append_right _ (List.mem_cons_of_mem _ h))
  refine ⟨ht, ?_, ?_⟩
  · rw [get_joinWith c0 _ hts]; simp [ht]
  · rw [get_joinWith c0 _ hts, get_joinWith c0 _ hts2]; simp [ht]

end HashCommands

namespace HashCommands

theorem parseCommandArgs_of_failure (raw : JSString)
    (hbad : decodeURI raw = none ∨ ∃ d, decodeURI raw = some d ∧ JSON.parse d = none) :
    parseCommandArgs (some raw) = JSON.empty := by
  by_cases hr : raw = []
  · subst hr; rfl
  · rcases hbad with h | ⟨d, h1, h2⟩
    · simp [parseCommandArgs, hr, h]
    · simp [parseCommandArgs, hr, h1, h2]

/-- C6 (as stated): the hash `#e:run:some-action?%7B%22x%22%3A1%7D` parses to one
command whose args is `{}`, not `{"x":1}`: `decodeURI` leaves the escape `%3A`
of the reserved `:` as it is, and `{"x"%3A1}` is not JSON. -/
theorem C6_escaped_colon_gives_empty_args :
    get (utf16 "#e:run:some-action?%7B%22x%22%3A1%7D")
        = [⟨utf16 "e:run", utf16 "some-action", JSON.empty⟩]
      ∧ get (utf16 "#e:run:some-action?%7B%22x%22%3A1%7D")
        ≠ [⟨utf16 "e:run", utf16 "some-action",
            JSON.object [(utf16 "x", JSON.number ⟨false, 1, 0⟩)]⟩] := by
  have h : get (utf16 "#e:run:some-action?%7B%22x%22%3A1%7D")
      = [⟨utf16 "e:run", utf16 "some-action", JSON.empty⟩] := by rfl
  refine ⟨h, ?_⟩
  rw [h]
  simp [JSON.empty]

/-- C6 (amended): with the `:` of the JSON text left unescaped, as `encodeURI`
writes it, the args round trip: the hash `#e:run:some-action?%7B%22x%22:1%7D`
parses to exactly one command with method `e:run`, command `some-action` and args
`{"x":1}`. -/
theorem C6_args_round_trip :
    get (utf16 "#e:run:some-action?%7B%22x%22:1%7D")
      = [⟨utf16 "e:run", utf16 "some-action",
          JSON.object [(utf16 "x", JSON.number ⟨false, 1, 0⟩)]⟩] := by
  rfl

/-- C7 (as stated): the token `e:run:foo?{"a":1}?x` has three colon segments and
the recognized method `e:run`, and its args suffix, the text `{"a":1}?x` after its
first `?`, URI-decodes to itself and is not JSON; yet its command does not get the
args `{}`: the suffix is cut at its second `?` and the command gets `{"a":1}`. -/
theorem C7_suffix_cut_before_fallback :
    utf16 "e:run:foo?\x7b\"a\":1\x7d?x"
        = utf16 "e:run:foo" ++ cQuestion :: utf16 "\x7b\"a\":1\x7d?x"
      ∧ cQuestion ∉ utf16 "e:run:foo"
      ∧ split cColon (rawCommand (utf16 "e:run:foo?\x7b\"a\":1\x7d?x"))
        = [utf16 "e", utf16 "run", utf16 "foo"]
      ∧ dispatchersList (utf16 "e" ++ [cColon] ++ utf16 "run") = Property.own Entry.eRun
      ∧ decodeURI (utf16 "\x7b\"a\":1\x7d?x") = some (utf16 "\x7b\"a\":1\x7d?x")
      ∧ JSON.parse (utf16 "\x7b\"a\":1\x7d?x") = none
      ∧ get (cHash :: utf16 "e:run:foo?\x7b\"a\":1\x7d?x")
        = [⟨utf16 "e:run", utf16 "foo", JSON.object [(utf16 "a", JSON.number ⟨false, 1, 0⟩)]⟩]
      ∧ get (cHash :: utf16 "e:run:foo?\x7b\"a\":1\x7d?x")
        ≠ [⟨utf16 "e:run", utf16 "foo", JSON.empty⟩] := by
  have h : get (cHash :: utf16 "e:run:foo?\x7b\"a\":1\x7d?x")
      = [⟨utf16 "e:run", utf16 "foo",
          JSON.object [(utf16 "a", JSON.number ⟨false, 1, 0⟩)]⟩] := by rfl
  refine ⟨by decide, by decide, by decide, by decide, by decide, by rfl, h, ?_⟩
  rw [h]
  simp [JSON.empty]

/-- C7 (amended): malformed-args fallback. For a token with three colon segments
and a recognized method whose raw args, the text handed to `parseCommandArgs`
(what stands between the first `?` and the second one, the whole suffix when it
holds no other `?`), cannot be URI-decoded, or are not JSON once decoded,
`parseCommandArgs` returns `{}`, and `get` still gives the command of that token,
with args `{}`, at its place among the commands of the other tokens. -/
theorem C7_malformed_args_fallback (c0 : Nat) (pre : List JSString) (t : JSString)
    (post : List JSString) (part0 part1 part2 raw : JSString) (e : Entry)
    (hts : ∀ x ∈ pre ++ t :: post, cAmp ∉ x)
    (hparts : split cColon (rawCommand t) = [part0, part1, part2])
    (hkey : dispatchersList (part0 ++ [cColon] ++ part1) = Property.own e)
    (hraw : rawArgs t = some raw)
    (hbad : decodeURI raw = none ∨ ∃ d, decodeURI raw = some d ∧ JSON.parse d = none) :
    parseCommandArgs (some raw) = JSON.empty
      ∧ getItem t = [⟨part0 ++ [cColon] ++ part1, part2, JSON.empty⟩]
      ∧ get (c0 :: joinWith cAmp (pre ++ t :: post))
          = pre.flatMap getItem
              ++ ⟨part0 ++ [cColon] ++ part1, part2, JSON.empty⟩ :: post.flatMap getItem := by
  have hp := parseCommandArgs_of_failure raw hbad
  have ht : getItem t = [⟨part0 ++ [cColon] ++ part1, part2, JSON.empty⟩] := by
    simp only [getItem, hparts, hkey, hraw, hp]
  refine ⟨hp, ht, ?_⟩
  rw [get_joinWith c0 _ hts]
  simp [ht]

/-- C8 (as stated): the fragment `e:run:foo` supplied without its `#` does not
parse to the commands of `#e:run:foo`: it parses to no command at all. -/
theorem C8_missing_hash_not_equal :
    (utf16 "e:run:foo").head? ≠ some cHash
      ∧ get (utf16 "e:run:foo") = []
      ∧ get (cHash :: utf16 "e:run:foo") = [⟨utf16 "e:run", utf16 "foo", JSON.empty⟩]
      ∧ get (utf16 "e:run:foo") ≠ get (cHash :: utf16 "e:run:foo") := by
  have h1 : get (utf16 "e:run:foo") = [] := by rfl
  have h2 : get (cHash :: utf16 "e:run:foo") = [⟨utf16 "e:run", utf16 "foo", JSON.empty⟩] := by
    rfl
  refine ⟨by decide, h1, h2, ?_⟩
  rw [h1, h2]
  simp

/-- C8 (amended): `get` drops the first code unit of a non-empty hash whatever it
is and parses the rest, so a hash parses to the same commands as the hash with
its first code unit replaced by `#`. -/
theorem C8_first_code_unit_dropped (c0 : Nat) (s : JSString) :
    get (c0 :: s) = (split cAmp (substr1 (c0 :: s))).flatMap getItem
      ∧ substr1 (c0 :: s) = s
      ∧ get (c0 :: s) = get (cHash :: s) := by
  refine ⟨?_, rfl, ?_⟩
  · rw [get_cons]; rfl
  · rw [get_cons, get_cons]

/-- C9 (as stated): for the token `e:run:foo?{"a":1}?x` the raw args handed to
the decoder are `{"a":1}`, not the remainder `{"a":1}?x` after the first `?`;
the command gets the args `{"a":1}`, where the remainder would decode to `{}`. -/
theorem C9_second_question_mark_cuts :
    rawArgs (utf16 "e:run:foo?\x7b\"a\":1\x7d?x") = some (utf16 "\x7b\"a\":1\x7d")
      ∧ rawArgs (utf16 "e:run:foo?\x7b\"a\":1\x7d?x") ≠ some (utf16 "\x7b\"a\":1\x7d?x")
      ∧ get (utf16 "#e:run:foo?\x7b\"a\":1\x7d?x")
          = [⟨utf16 "e:run", utf16 "foo",
              JSON.object [(utf16 "a", JSON.number ⟨false, 1, 0⟩)]⟩]
      ∧ parseCommandArgs (some (utf16 "\x7b\"a\":1\x7d?x")) = JSON.empty := by
  refine ⟨by decide, by decide, by rfl, by rfl⟩

/-- C9 (amended): a token is split on every `?`; the raw-command part is the
text before the first `?` and the raw args are the text between the first `?` and
the second one (the whole remainder when there is no second one); what follows a
second `?` is not read, the token parses as if it ended there. -/
theorem C9_raw_args_between_question_marks (before raw after : JSString)
    (hbefore : cQuestion ∉ before) (hraw : cQuestion ∉ raw) :
    rawCommand (before ++ cQuestion :: raw) = before
      ∧ rawArgs (before ++ cQuestion :: raw) = some raw
      ∧ rawCommand (before ++ cQuestion :: (raw ++ cQuestion :: after)) = before
      ∧ rawArgs (before ++ cQuestion :: (raw ++ cQuestion :: after)) = some raw
      ∧ getItem (before ++ cQuestion :: (raw ++ cQuestion :: after))
          = getItem (before ++ cQuestion :: raw) := by
  have h1 : split cQuestion (before ++ cQuestion :: raw) = [before, raw] := by
    rw [split_append_sep, split_of_not_mem _ _ hbefore, split_of_not_mem _ _ hraw]; rfl
  have h2 : split cQuestion (before ++ cQuestion :: (raw ++ cQuestion :: after))
      = before :: raw :: split cQuestion after := by
    rw [split_append_sep, split_append_sep, split_of_not_mem _ _ hbefore,
      split_of_not_mem _ _ hraw]; rfl
  have r1 : rawCommand (before ++ cQuestion :: raw) = before := by simp [rawCommand, h1]
  have r2 : rawArgs (before ++ cQuestion :: raw) = some raw := by simp [rawArgs, h1]
  have r3 : rawCommand (before ++ cQuestion :: (raw ++ cQuestion :: after)) = before := by
    simp [rawCommand, h2]
  have r4 : rawArgs (before ++ cQuestion :: (raw ++ cQuestion :: after)) = some raw := by
    simp [rawArgs, h2]
  refine ⟨r1, r2, r3, r4, ?_⟩
  simp only [getItem, r1, r2, r3, r4]

end HashCommands

namespace HashCommands

theorem dispatchersList_eRun : dispatchersList (utf16 "e:run") = Property.own Entry.eRun := by
  decide

theorem dispatchersList_eRoute :
    dispatchersList (utf16 "e:route") = Property.own Entry.eRoute := by
  decide

theorem new_foo_bar :
    new (utf16 "#e:run:foo&e:route:bar")
      = ⟨[⟨utf16 "e:run", utf16 "foo", JSON.empty⟩, ⟨utf16 "e:route", utf16 "bar", JSON.empty⟩]⟩ := by
  rfl

/-- C10: `runOnce` clears the pending sequence on success. For a pending sequence
that passes validation and whose runners all succeed, `runOnce` does what `run`
does on `this.commands` and leaves `this.commands` empty. For the hash
`#e:run:foo&e:route:bar` with `foo` registered as safe and both runners
succeeding, the `e:run` runner is called with `foo` and `{}`, then the `e:route`
runner with `bar` and `{}` in the world the first call left, the promise
resolves, and `this.commands` ends empty. -/
theorem C10_runOnce_clears_on_success {σ ε : Type} (env : Env σ ε) :
    (∀ (self : HashCommands) (w : σ), validate env w self.commands = none →
        runnersSucceed env self.commands w = true →
        (runOnce env self w).2 = run env self.commands w
          ∧ (runOnce env self w).2.failure = none
          ∧ List.Forall₂ (IsCallOf env) self.commands (runOnce env self w).2.calls
          ∧ (runOnce env self w).1.commands = [])
      ∧ (∀ (w w1 w2 : σ), env.getCommandClass (utf16 "foo") w = some ⟨true⟩ →
        env.run (utf16 "foo") JSON.empty w = ⟨w1, none⟩ →
        env.route (utf16 "bar") JSON.empty w1 = ⟨w2, none⟩ →
        (runOnce env (new (utf16 "#e:run:foo&e:route:bar")) w).2.calls
            = [⟨Entry.eRun, utf16 "foo", JSON.empty, w, w1⟩,
               ⟨Entry.eRoute, utf16 "bar", JSON.empty, w1, w2⟩]
          ∧ (runOnce env (new (utf16 "#e:run:foo&e:route:bar")) w).2.failure = none
          ∧ (runOnce env (new (utf16 "#e:run:foo&e:route:bar")) w).1.commands = []) := by
  constructor
  · intro self w hv hs
    have hall : ∀ c ∈ self.commands, ∃ e, dispatchersList c.method = Property.own e := by
      intro c hc
      obtain ⟨e, he, _⟩ := (validate_eq_none_iff env w self.commands).1 hv c hc
      exact ⟨e, he⟩
    obtain ⟨h1, h2, _⟩ := dispatch_of_succeed env self.commands w hall hs
    have hr := run_of_validate_none env w self.commands hv
    have hf : (run env self.commands w).failure = none := by rw [hr]; exact h1
    have hone : runOnce env self w = (⟨[]⟩, run env self.commands w) := by
      simp only [runOnce, hf]
    rw [hone]
    exact ⟨rfl, hf, by rw [hr]; exact h2, rfl⟩
  · intro w w1 w2 hsafe hrun hroute
    rw [new_foo_bar]
    simp [runOnce, run, validate, dispatch, dispatchersList_eRun, dispatchersList_eRoute,
      isSafe, runner, hsafe, hrun, hroute]

/-- The sample environment rejects a sequence whose second command is not safe,
without calling the runner of the safe command before it. -/
theorem C1_witness :
    (run sampleEnv [⟨utf16 "e:route", utf16 "home", JSON.empty⟩,
        ⟨utf16 "e:run", utf16 "bar", JSON.empty⟩] []).failure.isSome = true
      ∧ (run sampleEnv [⟨utf16 "e:route", utf16 "home", JSON.empty⟩,
        ⟨utf16 "e:run", utf16 "bar", JSON.empty⟩] []).calls = []
      ∧ (run sampleEnv [⟨utf16 "e:route", utf16 "home", JSON.empty⟩,
        ⟨utf16 "e:run", utf16 "bar", JSON.empty⟩] []).world = [] :=
  (C1_validation_all_or_nothing sampleEnv
    [⟨utf16 "e:route", utf16 "home", JSON.empty⟩, ⟨utf16 "e:run", utf16 "bar", JSON.empty⟩] []).1
    ⟨⟨utf16 "e:run", utf16 "bar", JSON.empty⟩, by simp, fun e => by cases e <;> decide⟩

/-- The sample environment runs a safe `e:run` command and an `e:route` command
one after the other. -/
theorem C2_witness :
    (run sampleEnv [⟨utf16 "e:run", utf16 "foo", JSON.empty⟩,
        ⟨utf16 "e:route", utf16 "home", JSON.empty⟩] []).failure = none
      ∧ List.Forall₂ (IsCallOf sampleEnv)
          [⟨utf16 "e:run", utf16 "foo", JSON.empty⟩, ⟨utf16 "e:route", utf16 "home", JSON.empty⟩]
          (run sampleEnv [⟨utf16 "e:run", utf16 "foo", JSON.empty⟩,
            ⟨utf16 "e:route", utf16 "home", JSON.empty⟩] []).calls
      ∧ Chained []
          (run sampleEnv [⟨utf16 "e:run", utf16 "foo", JSON.empty⟩,
            ⟨utf16 "e:route", utf16 "home", JSON.empty⟩] []).calls
          (run sampleEnv [⟨utf16 "e:run", utf16 "foo", JSON.empty⟩,
            ⟨utf16 "e:route", utf16 "home", JSON.empty⟩] []).world :=
  C2_sequential_dispatch sampleEnv
    [⟨utf16 "e:run", utf16 "foo", JSON.empty⟩, ⟨utf16 "e:route", utf16 "home", JSON.empty⟩] []
    (by rfl) (by rfl)

/-- In the sample environment the runner of `boom` fails after the runner of
`foo`, and the runner of `home` after it is not called. -/
theorem C3_witness :
    (run sampleEnv ([⟨utf16 "e:run", utf16 "foo", JSON.empty⟩]
        ++ ⟨utf16 "e:route", utf16 "boom", JSON.empty⟩
          :: [⟨utf16 "e:route", utf16 "home", JSON.empty⟩]) []).failure
        = some (RunError.runner ())
      ∧ List.Forall₂ (IsCallOf sampleEnv)
          ([⟨utf16 "e:run", utf16 "foo", JSON.empty⟩]
            ++ [⟨utf16 "e:route", utf16 "boom", JSON.empty⟩])
          (run sampleEnv ([⟨utf16 "e:run", utf16 "foo", JSON.empty⟩]
            ++ ⟨utf16 "e:route", utf16 "boom", JSON.empty⟩
              :: [⟨utf16 "e:route", utf16 "home", JSON.empty⟩]) []).calls
      ∧ Chained []
          (run sampleEnv ([⟨utf16 "e:run", utf16 "foo", JSON.empty⟩]
            ++ ⟨utf16 "e:route", utf16 "boom", JSON.empty⟩
              :: [⟨utf16 "e:route", utf16 "home", JSON.empty⟩]) []).calls
          (run sampleEnv ([⟨utf16 "e:run", utf16 "foo", JSON.empty⟩]
            ++ ⟨utf16 "e:route", utf16 "boom", JSON.empty⟩
              :: [⟨utf16 "e:route", utf16 "home", JSON.empty⟩]) []).world :=
  C3_fail_fast sampleEnv [⟨utf16 "e:run", utf16 "foo", JSON.empty⟩]
    ⟨utf16 "e:route", utf16 "boom", JSON.empty⟩ [⟨utf16 "e:route", utf16 "home", JSON.empty⟩]
    [] Entry.eRoute () (by rfl) (by rfl) (by decide) (by rfl)

/-- The hash `#e:run:foo` parses to the one command `foo` of `e:run`. -/
theorem C4_witness :
    dispatchersList (utf16 "e" ++ [cColon] ++ utf16 "run") = Property.own Entry.eRun
      ∧ get (cHash :: (utf16 "e" ++ [cColon] ++ utf16 "run" ++ [cColon] ++ utf16 "foo"))
        = [⟨utf16 "e" ++ [cColon] ++ utf16 "run", utf16 "foo", JSON.empty⟩] :=
  ⟨by decide,
    C4_get_well_formed (utf16 "e") (utf16 "run") (utf16 "foo") Entry.eRun (by decide) (by decide)
      (by decide) (by decide)⟩

/-- In `#e:run:foo&e:run:a:b&e:route:bar` the middle token has four segments and
is dropped. -/
theorem C5_witness :
    (split cColon (rawCommand (utf16 "e:run:a:b"))).length ≠ 3
      ∧ getItem (utf16 "e:run:a:b") = []
      ∧ get (cHash :: joinWith cAmp
          ([utf16 "e:run:foo"] ++ utf16 "e:run:a:b" :: [utf16 "e:route:bar"]))
        = [utf16 "e:run:foo"].flatMap getItem ++ [utf16 "e:route:bar"].flatMap getItem
      ∧ get (cHash :: joinWith cAmp
          ([utf16 "e:run:foo"] ++ utf16 "e:run:a:b" :: [utf16 "e:route:bar"]))
        = get (cHash :: joinWith cAmp ([utf16 "e:run:foo"] ++ [utf16 "e:route:bar"])) :=
  ⟨by decide,
    C5_malformed_token_dropped cHash [utf16 "e:run:foo"] (utf16 "e:run:a:b")
      [utf16 "e:route:bar"] (by decide) (by decide)⟩

/-- The token `e:run:foo?%E0%A4%A` has raw args that cannot be URI-decoded, and
still gives its command, with args `{}`. -/
theorem C7_witness :
    decodeURI (utf16 "%E0%A4%A") = none
      ∧ parseCommandArgs (some (utf16 "%E0%A4%A")) = JSON.empty
      ∧ getItem (utf16 "e:run:foo?%E0%A4%A")
        = [⟨utf16 "e" ++ [cColon] ++ utf16 "run", utf16 "foo", JSON.empty⟩]
      ∧ get (cHash :: joinWith cAmp
          ([utf16 "e:route:bar"] ++ utf16 "e:run:foo?%E0%A4%A" :: []))
        = [utf16 "e:route:bar"].flatMap getItem
            ++ ⟨utf16 "e" ++ [cColon] ++ utf16 "run", utf16 "foo", JSON.empty⟩
              :: ([] : List JSString).flatMap getItem :=
  ⟨by decide,
    C7_malformed_args_fallback cHash [utf16 "e:route:bar"] (utf16 "e:run:foo?%E0%A4%A") []
      (utf16 "e") (utf16 "run") (utf16 "foo") (utf16 "%E0%A4%A") Entry.eRun
      (by decide) (by decide) (by decide) (by decide) (Or.inl (by decide))⟩

/-- The token `e:run:foo?{"a":1}?x` parses as the token `e:run:foo?{"a":1}`. -/
theorem C9_witness :
    cQuestion ∉ utf16 "e:run:foo" ∧ cQuestion ∉ utf16 "\x7b\"a\":1\x7d"
      ∧ rawArgs (utf16 "e:run:foo" ++ cQuestion :: (utf16 "\x7b\"a\":1\x7d" ++ cQuestion :: utf16 "x"))
        = some (utf16 "\x7b\"a\":1\x7d")
      ∧ getItem (utf16 "e:run:foo" ++ cQuestion :: (utf16 "\x7b\"a\":1\x7d" ++ cQuestion :: utf16 "x"))
        = getItem (utf16 "e:run:foo" ++ cQuestion :: utf16 "\x7b\"a\":1\x7d") :=
  ⟨by decide, by decide,
    (C9_raw_args_between_question_marks (utf16 "e:run:foo") (utf16 "\x7b\"a\":1\x7d") (utf16 "x")
      (by decide) (by decide)).2.2.2⟩

/-- In the sample environment `runOnce` on the pending sequence of
`#e:run:foo&e:route:bar` resolves and leaves no pending command. -/
theorem C10_witness :
    validate sampleEnv [] (new (utf16 "#e:run:foo&e:route:bar")).commands = none
      ∧ runnersSucceed sampleEnv (new (utf16 "#e:run:foo&e:route:bar")).commands [] = true
      ∧ (runOnce sampleEnv (new (utf16 "#e:run:foo&e:route:bar")) []).2.failure = none
      ∧ (runOnce sampleEnv (new (utf16 "#e:run:foo&e:route:bar")) []).1.commands = [] :=
  ⟨by rfl, by rfl,
    ((C10_runOnce_clears_on_success sampleEnv).1 (new (utf16 "#e:run:foo&e:route:bar")) []
      (by rfl) (by rfl)).2.1,
    ((C10_runOnce_clears_on_success sampleEnv).1 (new (utf16 "#e:run:foo&e:route:bar")) []
      (by rfl) (by rfl)).2.2.2⟩

end HashCommands

/-! ## The pending sequence and the validation report -/

namespace HashCommands

theorem runOnce_of_failure {σ ε : Type} (env : Env σ ε) (self : HashCommands) (w : σ)
    (r : RunError ε) (h : (run env self.commands w).failure = some r) :
    runOnce env self w = (self, run env self.commands w) := by
  simp only [runOnce, h]

theorem run_of_offender {σ ε : Type} (env : Env σ ε) (commands : List HashCommand) (w : σ)
    (h : ∃ c ∈ commands, ∀ e, dispatchersList c.method = Property.own e →
      isSafe env e c.command w = false) :
    ∃ r, run env commands w = ⟨[], w, some r⟩ := by
  obtain ⟨c, hc, hbad⟩ := h
  cases hv : validate env w commands with
  | none =>
    obtain ⟨e, he, hsafe⟩ := (validate_eq_none_iff env w commands).1 hv c hc
    rw [hbad e he] at hsafe
    exact absurd hsafe (by decide)
  | some r => exact ⟨r, run_of_validate_some env w commands r hv⟩

theorem new_foo : new (utf16 "#e:run:foo") = ⟨[⟨utf16 "e:run", utf16 "foo", JSON.empty⟩]⟩ := by
  rfl

/-- C11: `runOnce` leaves the pending sequence untouched on failure. Whenever
`run` on `this.commands` is rejected, `this.commands` after `runOnce` is what it
was before; that is so when a command is unknown or unsafe (and then no runner is
called), and when a runner fails partway. For the hash `#e:run:foo` with `foo` not
safe, no runner is called, the rejection names `foo`, and the pending sequence is
still the one command parsed from the hash. -/
theorem C11_runOnce_keeps_on_failure {σ ε : Type} (env : Env σ ε) :
    (∀ (self : HashCommands) (w : σ) (r : RunError ε),
        (run env self.commands w).failure = some r → (runOnce env self w).1 = self)
      ∧ (∀ (self : HashCommands) (w : σ),
        (∃ c ∈ self.commands, ∀ e, dispatchersList c.method = Property.own e →
          isSafe env e c.command w = false) →
        (runOnce env self w).1 = self ∧ (runOnce env self w).2.calls = []
          ∧ (runOnce env self w).2.failure.isSome = true)
      ∧ (∀ (pre : List HashCommand) (c : HashCommand) (post : List HashCommand) (w : σ)
          (e : Entry) (f : ε),
        validate env w (pre ++ c :: post) = none → runnersSucceed env pre w = true →
        dispatchersList c.method = Property.own e →
        (runner env e c.command c.args (run env pre w).world).failure = some f →
        (runOnce env ⟨pre ++ c :: post⟩ w).1 = ⟨pre ++ c :: post⟩
          ∧ (runOnce env ⟨pre ++ c :: post⟩ w).2.failure = some (RunError.runner f))
      ∧ (∀ w : σ, isSafe env Entry.eRun (utf16 "foo") w = false →
        (runOnce env (new (utf16 "#e:run:foo")) w).2.calls = []
          ∧ (runOnce env (new (utf16 "#e:run:foo")) w).2.failure
            = some (RunError.error
                (utf16 "Attempting to run unsafe or non exist command: `" ++ utf16 "foo"
                  ++ utf16 "`."))
          ∧ (runOnce env (new (utf16 "#e:run:foo")) w).1.commands
            = [⟨utf16 "e:run", utf16 "foo", JSON.empty⟩]
          ∧ (runOnce env (new (utf16 "#e:run:foo")) w).1 = new (utf16 "#e:run:foo")) := by
  refine ⟨?_, ?_, ?_, ?_⟩
  · intro self w r h
    rw [runOnce_of_failure env self w r h]
  · intro self w h
    obtain ⟨r, hr⟩ := run_of_offender env self.commands w h
    have hf : (run env self.commands w).failure = some r := by rw [hr]
    rw [runOnce_of_failure env self w r hf, hr]
    exact ⟨rfl, rfl, rfl⟩
  · intro pre c post w e f hv hpre he hf
    have hall := (validate_eq_none_iff env w (pre ++ c :: post)).1 hv
    have hvpre : validate env w pre = none :=
      (validate_eq_none_iff env w pre).2 (fun x hx => hall x (List.mem_append_left _ hx))
    rw [run_of_validate_none env w pre hvpre] at hf
    have hk : ∀ x ∈ pre, ∃ e2, dispatchersList x.method = Property.own e2 := by
      intro x hx
      obtain ⟨e2, he2, _⟩ := hall x (List.mem_append_left _ hx)
      exact ⟨e2, he2⟩
    obtain ⟨h1, _, _⟩ := dispatch_fail_fast env pre c post e f he w hk hpre hf
    have hfail : (run env (HashCommands.mk (pre ++ c :: post)).commands w).failure
        = some (RunError.runner f) := by
      rw [run_of_validate_none env w _ hv]; exact h1
    rw [runOnce_of_failure env _ w _ hfail]
    exact ⟨rfl, hfail⟩
  · intro w hsafe
    rw [new_foo]
    have hv : validate env w [⟨utf16 "e:run", utf16 "foo", JSON.empty⟩]
        = some (RunError.error
            (utf16 "Attempting to run unsafe or non exist command: `" ++ utf16 "foo"
              ++ utf16 "`.")) := by
      simp [validate, dispatchersList_eRun, hsafe]
    have hr := run_of_validate_some env w _ _ hv
    have hf : (run env (HashCommands.mk [⟨utf16 "e:run", utf16 "foo", JSON.empty⟩]).commands
        w).failure = some (RunError.error
            (utf16 "Attempting to run unsafe or non exist command: `" ++ utf16 "foo"
              ++ utf16 "`.")) := by
      rw [hr]
    rw [runOnce_of_failure env _ w _ hf, hr]
    exact ⟨rfl, rfl, rfl, rfl⟩

/-- In the sample environment `bar` is not safe: `runOnce` on the pending
sequence of `#e:run:bar` keeps it. -/
theorem C11_witness :
    (run sampleEnv (new (utf16 "#e:run:bar")).commands []).failure
        = some (RunError.error
            (utf16 "Attempting to run unsafe or non exist command: `bar`."))
      ∧ (runOnce sampleEnv (new (utf16 "#e:run:bar")) []).1 = new (utf16 "#e:run:bar") :=
  ⟨by rfl,
    (C11_runOnce_keeps_on_failure sampleEnv).1 (new (utf16 "#e:run:bar")) [] _ (by rfl)⟩

end HashCommands

namespace HashCommands

theorem validate_append {σ ε : Type} (env : Env σ ε) (w : σ) (pre rest : List HashCommand)
    (h : validate env w pre = none) :
    validate env w (pre ++ rest) = validate env w rest := by
  induction pre with
  | nil => rfl
  | cons c cs ih =>
    cases hd : dispatchersList c.method with
    | undefined => simp [validate, hd] at h
    | inherited => simp [validate, hd] at h
    | own e =>
      by_cases hs : isSafe env e c.command w = true
      · simp only [validate, hd, hs, if_true] at h
        simp only [List.cons_append, validate, hd, hs, if_true]
        exact ih h
      · simp [validate, hd, hs] at h

/-- What the first loop of `run` reports for the first command it does not
accept, after commands that it accepts: an `Error` that names the command when its
method finds nothing in the table or when it is not safe, and a `TypeError` when
its method finds a member of `Object.prototype`. In each case no runner is
called. -/
theorem run_first_offender {σ ε : Type} (env : Env σ ε) (w : σ) (pre : List HashCommand)
    (c : HashCommand) (post : List HashCommand) (h : validate env w pre = none) :
    (dispatchersList c.method = Property.undefined →
        run env (pre ++ c :: post) w
          = ⟨[], w, some (RunError.error
              (utf16 "No dispatcher found for the command: `" ++ c.command ++ utf16 "`."))⟩)
      ∧ (∀ e, dispatchersList c.method = Property.own e → isSafe env e c.command w = false →
        run env (pre ++ c :: post) w
          = ⟨[], w, some (RunError.error
              (utf16 "Attempting to run unsafe or non exist command: `" ++ c.command
                ++ utf16 "`."))⟩)
      ∧ (dispatchersList c.method = Property.inherited →
        run env (pre ++ c :: post) w = ⟨[], w, some RunError.typeError⟩) := by
  refine ⟨?_, ?_, ?_⟩
  · intro hd
    apply run_of_validate_some
    rw [validate_append env w pre _ h]
    simp [validate, hd]
  · intro e hd hs
    apply run_of_validate_some
    rw [validate_append env w pre _ h]
    simp [validate, hd, hs]
  · intro hd
    apply run_of_validate_some
    rw [validate_append env w pre _ h]
    simp [validate, hd]

/-- C12 (the code at the failing input): a command whose method is `toString`,
which is not a key of the table, is read from `Object.prototype`; the guard
`! dispatcher` lets it pass and the call of its `isSafe` throws, so `run` is
rejected with a `TypeError`, not with the `Error` that names the command `foo`. -/
theorem C12_inherited_method_type_error {σ ε : Type} (env : Env σ ε) (w : σ) :
    dispatchersList (utf16 "toString") = Property.inherited
      ∧ (∀ e, dispatchersList (utf16 "toString") ≠ Property.own e)
      ∧ run env [⟨utf16 "toString", utf16 "foo", JSON.empty⟩] w
          = ⟨[], w, some RunError.typeError⟩
      ∧ (∀ message : JSString,
          (run env [⟨utf16 "toString", utf16 "foo", JSON.empty⟩] w).failure
            ≠ some (RunError.error message)) := by
  have hd : dispatchersList (utf16 "toString") = Property.inherited := by decide
  have hr : run env [⟨utf16 "toString", utf16 "foo", JSON.empty⟩] w
      = ⟨[], w, some RunError.typeError⟩ := by
    apply run_of_validate_some
    simp [validate, hd]
  refine ⟨hd, ?_, hr, ?_⟩
  · intro e he
    rw [hd] at he
    exact Property.noConfusion he
  · intro message hm
    rw [hr] at hm
    simp at hm

/-- C13 (the code at the failing inputs): the tokens `e:run:foo?5`,
`e:run:foo?[1]` and `e:run:foo?null` give commands whose args are the number 5,
the array `[1]` and `null`, none of them an object. -/
theorem C13_args_not_always_object :
    get (utf16 "#e:run:foo?5")
        = [⟨utf16 "e:run", utf16 "foo", JSON.number ⟨false, 5, 0⟩⟩]
      ∧ get (utf16 "#e:run:foo?[1]")
        = [⟨utf16 "e:run", utf16 "foo", JSON.array [JSON.number ⟨false, 1, 0⟩]⟩]
      ∧ get (utf16 "#e:run:foo?null") = [⟨utf16 "e:run", utf16 "foo", JSON.null⟩]
      ∧ (get (utf16 "#e:run:foo?5")).map (fun c => c.args.isObject) = [false]
      ∧ (get (utf16 "#e:run:foo?[1]")).map (fun c => c.args.isObject) = [false]
      ∧ (get (utf16 "#e:run:foo?null")).map (fun c => c.args.isObject) = [false] := by
  refine ⟨by rfl, by rfl, by rfl, by rfl, by rfl, by rfl⟩

end HashCommands

/-! ## What `get` can return -/

theorem not_mem_of_mem_split (sep : Nat) (s : JSString) :
    ∀ p ∈ split sep s, sep ∉ p := by
  induction s with
  | nil => intro p hp; simp [split] at hp; simp [hp]
  | cons c cs ih =>
    intro p hp
    by_cases h : c = sep
    · simp only [split, h, if_true, List.mem_cons] at hp
      rcases hp with hp | hp
      · simp [hp]
      · exact ih p hp
    · cases hs : split sep cs with
      | nil => exact absurd hs (split_ne_nil sep cs)
      | cons piece pieces =>
        simp only [split, h, if_false, hs, List.mem_cons] at hp
        rcases hp with hp | hp
        · subst hp
          have hpiece := ih piece (by rw [hs]; exact List.mem_cons_self _ _)
          intro hmem
          rcases List.mem_cons.1 hmem with h1 | h1
          · exact h h1.symm
          · exact hpiece h1
        · exact ih p (by rw [hs]; exact List.mem_cons_of_mem _ hp)

theorem mem_of_mem_split (sep : Nat) (s : JSString) :
    ∀ p ∈ split sep s, ∀ x ∈ p, x ∈ s := by
  induction s with
  | nil => intro p hp x hx; simp [split] at hp; simp [hp] at hx
  | cons c cs ih =>
    intro p hp x hx
    by_cases h : c = sep
    · simp only [split, h, if_true, List.mem_cons] at hp
      rcases hp with hp | hp
      · simp [hp] at hx
      · exact List.mem_cons_of_mem _ (ih p hp x hx)
    · cases hs : split sep cs with
      | nil => exact absurd hs (split_ne_nil sep cs)
      | cons piece pieces =>
        simp only [split, h, if_false, hs, List.mem_cons] at hp
        rcases hp with hp | hp
        · subst hp
          rcases List.mem_cons.1 hx with h1 | h1
          · rw [h1]; exact List.mem_cons_self _ _
          · exact List.mem_cons_of_mem _
              (ih piece (by rw [hs]; exact List.mem_cons_self _ _) x h1)
        · exact List.mem_cons_of_mem _
            (ih p (by rw [hs]; exact List.mem_cons_of_mem _ hp) x hx)

namespace HashCommands

theorem rawCommand_mem (t : JSString) : rawCommand t ∈ split cQuestion t := by
  unfold rawCommand
  cases hs : split cQuestion t with
  | nil => exact absurd hs (split_ne_nil cQuestion t)
  | cons piece pieces => simp

theorem mem_getItem (t : JSString) (c : HashCommand) (h : c ∈ getItem t) :
    ∃ p0 p1 p2, split cColon (rawCommand t) = [p0, p1, p2]
      ∧ dispatchersList (p0 ++ [cColon] ++ p1) ≠ Property.undefined
      ∧ c = ⟨p0 ++ [cColon] ++ p1, p2, parseCommandArgs (rawArgs t)⟩ := by
  unfold getItem at h
  split at h
  · next p0 p1 p2 hs =>
    split at h
    · simp at h
    · next hd =>
      simp only [List.mem_singleton] at h
      exact ⟨p0, p1, p2, hs, hd, h⟩
  · simp at h

theorem mem_get (hash : JSString) (c : HashCommand) (h : c ∈ get hash) :
    ∃ t ∈ split cAmp (substr1 hash), c ∈ getItem t := by
  unfold get at h
  split at h
  · simp at h
  · exact List.mem_flatMap.1 h

theorem dispatchersList_of_colon (m : JSString) (h : cColon ∈ m) :
    dispatchersList m ≠ Property.inherited := by
  have hkeys : ∀ k ∈ objectPrototypeKeys, cColon ∉ k := by decide
  intro hd
  unfold dispatchersList at hd
  split_ifs at hd with h1 h2 h3
  exact hkeys m h3 h

theorem getItem_length (t : JSString) : (getItem t).length ≤ 1 := by
  unfold getItem
  split
  · split <;> simp
  · simp

theorem flatMap_getItem_length (ts : List JSString) :
    (ts.flatMap getItem).length ≤ ts.length := by
  induction ts with
  | nil => simp
  | cons t rest ih =>
    simp only [List.flatMap_cons, List.length_append, List.length_cons]
    have := getItem_length t
    omega

end HashCommands

namespace HashCommands

/-- C14: `get` only emits actionable commands. Every command `get` returns has a
method that is a key of the dispatcher table; a token of three segments whose
first two, joined with `:`, are not a key contributes no command, the commands of
the other tokens staying as they are; and `#x:y:z` parses to the empty sequence. -/
theorem C14_get_only_actionable :
    (∀ (hash : JSString) (c : HashCommand), c ∈ get hash →
        ∃ e, dispatchersList c.method = Property.own e)
      ∧ (∀ (c0 : Nat) (pre : List JSString) (t : JSString) (post : List JSString)
          (p0 p1 p2 : JSString), (∀ x ∈ pre ++ t :: post, cAmp ∉ x) →
        split cColon (rawCommand t) = [p0, p1, p2] →
        (∀ e, dispatchersList (p0 ++ [cColon] ++ p1) ≠ Property.own e) →
        getItem t = []
          ∧ get (c0 :: joinWith cAmp (pre ++ t :: post))
            = pre.flatMap getItem ++ post.flatMap getItem)
      ∧ dispatchersList (utf16 "x:y") = Property.undefined
      ∧ get (utf16 "#x:y:z") = [] := by
  refine ⟨?_, ?_, by decide, by rfl⟩
  · intro hash c hc
    obtain ⟨t, _, hct⟩ := mem_get hash c hc
    obtain ⟨p0, p1, p2, _, hd, hceq⟩ := mem_getItem t c hct
    have hcolon : cColon ∈ p0 ++ [cColon] ++ p1 := by simp
    have hi := dispatchersList_of_colon _ hcolon
    subst hceq
    cases hcase : dispatchersList (p0 ++ [cColon] ++ p1) with
    | own e => exact ⟨e, rfl⟩
    | inherited => exact absurd hcase hi
    | undefined => exact absurd hcase hd
  · intro c0 pre t post p0 p1 p2 hts hs hkey
    have hcolon : cColon ∈ p0 ++ [cColon] ++ p1 := by simp
    have hi := dispatchersList_of_colon _ hcolon
    have ht : getItem t = [] := by
      cases hcase : dispatchersList (p0 ++ [cColon] ++ p1) with
      | own e => exact absurd hcase (hkey e)
      | inherited => exact absurd hcase hi
      | undefined => simp only [getItem, hs, hcase]
    refine ⟨ht, ?_⟩
    rw [get_joinWith c0 _ hts]
    simp [ht]

/-- The token `x:y:z` between two good tokens is dropped. -/
theorem C14_witness :
    getItem (utf16 "x:y:z") = []
      ∧ get (cHash :: joinWith cAmp ([utf16 "e:run:foo"] ++ utf16 "x:y:z" :: [utf16 "e:route:bar"]))
        = [utf16 "e:run:foo"].flatMap getItem ++ [utf16 "e:route:bar"].flatMap getItem :=
  C14_get_only_actionable.2.1 cHash [utf16 "e:run:foo"] (utf16 "x:y:z") [utf16 "e:route:bar"]
    (utf16 "x") (utf16 "y") (utf16 "z") (by decide) (by decide)
    (fun e => by cases e <;> decide)

/-- C15: dispatch of the empty sequence succeeds trivially. `run` on the empty
sequence resolves, calls no runner and no `isSafe`, and leaves the world as it
is; `get` of the empty string is the empty sequence. -/
theorem C15_empty_sequence {σ ε : Type} (env : Env σ ε) (w : σ) :
    run env [] w = ⟨[], w, none⟩
      ∧ (run env [] w).failure = none
      ∧ (run env [] w).calls = []
      ∧ isSafeCalls env w [] = []
      ∧ get [] = [] := by
  refine ⟨rfl, rfl, rfl, rfl, rfl⟩

theorem isSafeCalls_of_validate {σ ε : Type} (env : Env σ ε) (w : σ)
    (commands : List HashCommand) (h : validate env w commands = none) :
    List.Forall₂ (fun c call => dispatchersList c.method = Property.own call.1
      ∧ call.2 = c.command) commands (isSafeCalls env w commands) := by
  induction commands with
  | nil => exact List.Forall₂.nil
  | cons c rest ih =>
    cases hd : dispatchersList c.method with
    | undefined => simp [validate, hd] at h
    | inherited => simp [validate, hd] at h
    | own e =>
      by_cases hs : isSafe env e c.command w = true
      · simp only [validate, hd, hs, if_true] at h
        simp only [isSafeCalls, hd, hs, if_true]
        exact List.Forall₂.cons ⟨hd, rfl⟩ (ih h)
      · simp [validate, hd, hs] at h

/-- C16: safety is checked at call time and never memoized. A call of `run` that
accepts a sequence calls `isSafe` once for each of its commands, with that
command's name, in the world of the call; the verdict of a call depends on the
world of that call only; so a sequence accepted in the world `w1` is rejected,
with no runner called, by a call in a world `w2` in which one of its commands is
no longer safe. -/
theorem C16_safety_checked_at_call_time {σ ε : Type} (env : Env σ ε)
    (commands : List HashCommand) (w1 w2 : σ) :
    (validate env w1 commands = none →
        List.Forall₂ (fun c call => dispatchersList c.method = Property.own call.1
          ∧ call.2 = c.command) commands (isSafeCalls env w1 commands))
      ∧ (validate env w2 commands = none ↔
        ∀ c ∈ commands, ∃ e, dispatchersList c.method = Property.own e
          ∧ isSafe env e c.command w2 = true)
      ∧ (validate env w1 commands = none →
        (∃ c ∈ commands, ∀ e, dispatchersList c.method = Property.own e →
          isSafe env e c.command w2 = false) →
        (run env commands w2).failure.isSome = true ∧ (run env commands w2).calls = []) := by
  refine ⟨isSafeCalls_of_validate env w1 commands, validate_eq_none_iff env w2 commands, ?_⟩
  intro _ hbad
  obtain ⟨r, hr⟩ := run_of_offender env commands w2 hbad
  rw [hr]
  exact ⟨rfl, rfl⟩

/-- With the registry in which a command is safe until it has been run, a first
`run` of `e:run:foo` is accepted and a second one, in the world the first leaves,
is rejected without a runner call. -/
theorem C16_witness :
    (run oneShotEnv [⟨utf16 "e:run", utf16 "foo", JSON.empty⟩] []).failure = none
      ∧ (run oneShotEnv [⟨utf16 "e:run", utf16 "foo", JSON.empty⟩]
          (run oneShotEnv [⟨utf16 "e:run", utf16 "foo", JSON.empty⟩] []).world).failure.isSome
        = true
      ∧ (run oneShotEnv [⟨utf16 "e:run", utf16 "foo", JSON.empty⟩]
          (run oneShotEnv [⟨utf16 "e:run", utf16 "foo", JSON.empty⟩] []).world).calls = [] :=
  ⟨by rfl,
    (C16_safety_checked_at_call_time oneShotEnv [⟨utf16 "e:run", utf16 "foo", JSON.empty⟩] []
      (run oneShotEnv [⟨utf16 "e:run", utf16 "foo", JSON.empty⟩] []).world).2.2 (by rfl)
      ⟨⟨utf16 "e:run", utf16 "foo", JSON.empty⟩, by simp, fun e => by cases e <;> decide⟩⟩

/-- C17: the built-in safety policy. A command with method `e:route` passes
validation whatever its name; a command with method `e:run` passes validation
exactly when its name resolves to a registered command class whose info has a
truthy `isSafe`; an `e:run` command whose name is not registered is rejected with
the `unsafe or non exist command` error and no runner is called. -/
theorem C17_built_in_policy {σ ε : Type} (env : Env σ ε) (command : JSString) (args : JSON)
    (w : σ) :
    validate env w [⟨utf16 "e:route", command, args⟩] = none
      ∧ (validate env w [⟨utf16 "e:run", command, args⟩] = none ↔
        ∃ info, env.getCommandClass command w = some info ∧ info.isSafe = true)
      ∧ (env.getCommandClass command w = none →
        run env [⟨utf16 "e:run", command, args⟩] w
          = ⟨[], w, some (RunError.error
              (utf16 "Attempting to run unsafe or non exist command: `" ++ command
                ++ utf16 "`."))⟩) := by
  refine ⟨?_, ?_, ?_⟩
  · simp [validate, dispatchersList_eRoute, isSafe]
  · cases hc : env.getCommandClass command w with
    | none => simp [validate, dispatchersList_eRun, isSafe, hc]
    | some info =>
      cases hi : info.isSafe <;> simp [validate, dispatchersList_eRun, isSafe, hc, hi]
  · intro hc
    apply run_of_validate_some
    simp [validate, dispatchersList_eRun, isSafe, hc]

/-- In the sample environment the command `nope` is not registered, and
`e:run:nope` is rejected. -/
theorem C17_witness :
    sampleEnv.getCommandClass (utf16 "nope") [] = none
      ∧ run sampleEnv [⟨utf16 "e:run", utf16 "nope", JSON.empty⟩] []
        = ⟨[], [], some (RunError.error
            (utf16 "Attempting to run unsafe or non exist command: `" ++ utf16 "nope"
              ++ utf16 "`."))⟩ :=
  ⟨by rfl, (C17_built_in_policy sampleEnv (utf16 "nope") JSON.empty []).2.2 (by rfl)⟩

end HashCommands

namespace HashCommands

/-- C18: `get` distributes over `&`. The commands of `#a&b` are those of `#a`
followed by those of `#b`; so the result of `get` is the concatenation, in order,
of the results of the `&`-delimited tokens, each of which gives at most one
command. -/
theorem C18_get_distributes_over_amp :
    (∀ a b : JSString, get (cHash :: (a ++ cAmp :: b)) = get (cHash :: a) ++ get (cHash :: b))
      ∧ (∀ (c0 : Nat) (s : JSString), get (c0 :: s) = (split cAmp s).flatMap getItem)
      ∧ (∀ t : JSString, (getItem t).length ≤ 1)
      ∧ (∀ hash : JSString, (get hash).length ≤ (split cAmp (substr1 hash)).length) := by
  refine ⟨?_, get_cons, getItem_length, ?_⟩
  · intro a b
    rw [get_cons, get_cons, get_cons, split_append_sep, List.flatMap_append]
  · intro hash
    cases hash with
    | nil => simp [get]
    | cons c0 s =>
      rw [get_cons]
      exact flatMap_getItem_length _

/-- C19: no delimiter reaches the command name. Every command `get` returns has a
command name without `:`, `&` and `?`, and a method with exactly one `:`. -/
theorem C19_no_delimiter_in_command (hash : JSString) (c : HashCommand) (h : c ∈ get hash) :
    cColon ∉ c.command ∧ cAmp ∉ c.command ∧ cQuestion ∉ c.command
      ∧ c.method.count cColon = 1 := by
  obtain ⟨t, ht, hct⟩ := mem_get hash c h
  obtain ⟨p0, p1, p2, hs, _, hceq⟩ := mem_getItem t c hct
  subst hceq
  have hm0 : p0 ∈ split cColon (rawCommand t) := by rw [hs]; simp
  have hm1 : p1 ∈ split cColon (rawCommand t) := by rw [hs]; simp
  have hm2 : p2 ∈ split cColon (rawCommand t) := by rw [hs]; simp
  have hsub : ∀ x ∈ p2, x ∈ rawCommand t := mem_of_mem_split cColon _ p2 hm2
  have hsub2 : ∀ x ∈ rawCommand t, x ∈ t := mem_of_mem_split cQuestion t _ (rawCommand_mem t)
  have hq : cQuestion ∉ rawCommand t := not_mem_of_mem_split cQuestion t _ (rawCommand_mem t)
  have ha : cAmp ∉ t := not_mem_of_mem_split cAmp _ t ht
  have h0 : cColon ∉ p0 := not_mem_of_mem_split cColon _ p0 hm0
  have h1 : cColon ∉ p1 := not_mem_of_mem_split cColon _ p1 hm1
  refine ⟨not_mem_of_mem_split cColon _ p2 hm2, ?_, ?_, ?_⟩
  · exact fun hx => ha (hsub2 _ (hsub _ hx))
  · exact fun hx => hq (hsub _ hx)
  · simp [List.count_append, List.count_eq_zero_of_not_mem h0, List.count_eq_zero_of_not_mem h1]

/-- The command of `#e:run:foo?a:b&c` is named `foo`. -/
theorem C19_witness :
    (⟨utf16 "e:run", utf16 "foo", JSON.empty⟩ : HashCommand) ∈ get (utf16 "#e:run:foo?a:b&c")
      ∧ cColon ∉ utf16 "foo" ∧ cAmp ∉ utf16 "foo" ∧ cQuestion ∉ utf16 "foo"
      ∧ (utf16 "e:run").count cColon = 1 :=
  have hget : get (utf16 "#e:run:foo?a:b&c") = [⟨utf16 "e:run", utf16 "foo", JSON.empty⟩] := by
    rfl
  have hmem : (⟨utf16 "e:run", utf16 "foo", JSON.empty⟩ : HashCommand)
      ∈ get (utf16 "#e:run:foo?a:b&c") := by
    rw [hget]; exact List.mem_singleton.2 rfl
  ⟨hmem, C19_no_delimiter_in_command (utf16 "#e:run:foo?a:b&c")
    ⟨utf16 "e:run", utf16 "foo", JSON.empty⟩ hmem⟩

theorem parseCommandArgsMethod_eq {σ : Type} (rawArgs : Option JSString) (st : Store σ) :
    parseCommandArgsMethod rawArgs st = (parseCommandArgs rawArgs, st) := by
  simp only [parseCommandArgsMethod, parseCommandArgs]
  split
  · rfl
  · split <;> rfl

theorem getItemMethod_eq {σ : Type} (hashItem : JSString) (result : List HashCommand)
    (st : Store σ) :
    getItemMethod hashItem result st = (result ++ getItem hashItem, st) := by
  simp only [getItemMethod, getItem, parseCommandArgsMethod_eq]
  split
  · split <;> simp
  · simp

theorem forEachItem_eq {σ : Type} (items : List JSString) :
    ∀ (result : List HashCommand) (st : Store σ),
      forEachItem items result st = (result ++ items.flatMap getItem, st) := by
  induction items with
  | nil => intro result st; simp [forEachItem]
  | cons hashItem rest ih =>
    intro result st
    simp only [forEachItem, getItemMethod_eq, ih, List.flatMap_cons, List.append_assoc]

theorem getMethod_eq {σ : Type} (hash : JSString) (st : Store σ) :
    getMethod hash st = (get hash, st) := by
  by_cases h : hash = []
  · simp [getMethod, get, h]
  · simp [getMethod, get, h, forEachItem_eq]

theorem validateLoop_eq {σ ε : Type} (env : Env σ ε) (commands : List HashCommand)
    (st : Store σ) : validateLoop env commands st = (validate env st.2 commands, st) := by
  induction commands with
  | nil => rfl
  | cons c rest ih =>
    cases hd : dispatchersList c.method with
    | undefined => simp only [validateLoop, validate, hd]
    | inherited => simp only [validateLoop, validate, hd]
    | own e =>
      by_cases hs : isSafe env e c.command st.2 = true
      · simp only [validateLoop, validate, hd, hs, if_true, ih]
      · simp [validateLoop, validate, hd, hs]

theorem dispatchLoop_eq {σ ε : Type} (env : Env σ ε) (commands : List HashCommand) :
    ∀ (self : HashCommands) (w : σ),
      dispatchLoop env commands (self, w)
        = (((dispatch env commands w).calls, (dispatch env commands w).failure),
            (self, (dispatch env commands w).world)) := by
  induction commands with
  | nil => intro self w; rfl
  | cons c rest ih =>
    intro self w
    cases hd : dispatchersList c.method with
    | undefined => simp only [dispatchLoop, dispatch, hd]
    | inherited => simp only [dispatchLoop, dispatch, hd]
    | own e =>
      cases hf : (runner env e c.command c.args w).failure with
      | some f => simp only [dispatchLoop, dispatch, hd, hf]
      | none => simp only [dispatchLoop, dispatch, hd, hf, ih]

theorem runMethod_eq {σ ε : Type} (env : Env σ ε) (commands : Option (List HashCommand))
    (self : HashCommands) (w : σ) :
    runMethod env commands (self, w)
      = (run env (commands.getD self.commands) w,
          (self, (run env (commands.getD self.commands) w).world)) := by
  cases commands with
  | none =>
    cases hv : validate env w self.commands with
    | none => simp [runMethod, run, validateLoop_eq, dispatchLoop_eq, hv]
    | some r => simp [runMethod, run, validateLoop_eq, hv]
  | some given =>
    cases hv : validate env w given with
    | none => simp [runMethod, run, validateLoop_eq, dispatchLoop_eq, hv]
    | some r => simp [runMethod, run, validateLoop_eq, hv]

theorem runOnceMethod_eq {σ ε : Type} (env : Env σ ε) (self : HashCommands) (w : σ) :
    runOnceMethod env (self, w)
      = ((runOnce env self w).2, ((runOnce env self w).1, (runOnce env self w).2.world)) := by
  cases hf : (run env self.commands w).failure with
  | none => simp [runOnceMethod, runOnce, runMethod_eq, hf]
  | some r => simp [runOnceMethod, runOnce, runMethod_eq, hf]

theorem perform_commands {σ ε : Type} (env : Env σ ε) (op : Operation) (st : Store σ) :
    (perform env op st).1.commands = st.1.commands ∨ (perform env op st).1.commands = [] := by
  obtain ⟨self, w⟩ := st
  cases op with
  | get hash => left; simp only [perform, getMethod_eq]
  | run commands => left; simp only [perform, runMethod_eq]
  | runOnce =>
    cases hf : (run env self.commands w).failure with
    | none => right; simp only [perform, runOnceMethod_eq, runOnce, hf]
    | some r => left; simp only [perform, runOnceMethod_eq, runOnce, hf]

/-- C20: `run` and `get` never modify the pending sequence. The methods `get`,
`run` and `runOnce`, taken statement by statement with the instance and the world
passed through, return what the functions `get`, `run` and `runOnce` compute;
`get` leaves the instance and the world as they were, `run` leaves the instance as
it was whatever its argument and its outcome; a call of a method that changes the
instance is a `runOnce` whose `run` resolved, and it leaves `this.commands` empty;
so after any series of calls `this.commands` is either as constructed or empty. -/
theorem C20_pending_sequence_frame {σ ε : Type} (env : Env σ ε) :
    (∀ (hash : JSString) (self : HashCommands) (w : σ),
        getMethod hash (self, w) = (get hash, (self, w)))
      ∧ (∀ (commands : Option (List HashCommand)) (self : HashCommands) (w : σ),
        runMethod env commands (self, w)
          = (run env (commands.getD self.commands) w,
              (self, (run env (commands.getD self.commands) w).world)))
      ∧ (∀ (self : HashCommands) (w : σ),
        runOnceMethod env (self, w)
          = ((runOnce env self w).2, ((runOnce env self w).1, (runOnce env self w).2.world)))
      ∧ (∀ (commands : Option (List HashCommand)) (self : HashCommands) (w : σ),
        (perform env (Operation.run commands) (self, w)).1 = self)
      ∧ (∀ (hash : JSString) (self : HashCommands) (w : σ),
        (perform env (Operation.get hash) (self, w)).1 = self)
      ∧ (∀ (op : Operation) (self : HashCommands) (w : σ),
        (perform env op (self, w)).1 ≠ self →
        op = Operation.runOnce ∧ (run env self.commands w).failure = none
          ∧ (perform env op (self, w)).1.commands = [])
      ∧ (∀ (ops : List Operation) (self : HashCommands) (w : σ),
        (ops.foldl (fun st op => perform env op st) (self, w)).1.commands = self.commands
          ∨ (ops.foldl (fun st op => perform env op st) (self, w)).1.commands = []) := by
  refine ⟨fun hash self w => getMethod_eq hash (self, w), runMethod_eq env,
    runOnceMethod_eq env, ?_, ?_, ?_, ?_⟩
  · intro commands self w
    simp only [perform, runMethod_eq]
  · intro hash self w
    simp only [perform, getMethod_eq]
  · intro op self w hne
    cases op with
    | get hash => exact absurd (by simp only [perform, getMethod_eq]) hne
    | run commands => exact absurd (by simp only [perform, runMethod_eq]) hne
    | runOnce =>
      cases hf : (run env self.commands w).failure with
      | none => exact ⟨rfl, rfl, by simp only [perform, runOnceMethod_eq, runOnce, hf]⟩
      | some r =>
        have : (perform env Operation.runOnce (self, w)).1 = self := by
          simp only [perform, runOnceMethod_eq, runOnce, hf]
        exact absurd this hne
  · intro ops
    induction ops with
    | nil => intro self w; exact Or.inl rfl
    | cons op rest ih =>
      intro self w
      simp only [List.foldl_cons]
      rcases ih (perform env op (self, w)).1 (perform env op (self, w)).2 with h | h
      · rcases perform_commands env op (self, w) with h2 | h2
        · left; rw [h, h2]
        · right; rw [h, h2]
      · exact Or.inr h

/-- In the sample environment `runOnce` on the pending sequence of `#e:run:foo`
changes the instance, and leaves it empty. -/
theorem C20_witness :
    (perform sampleEnv Operation.runOnce (new (utf16 "#e:run:foo"), [])).1
        ≠ new (utf16 "#e:run:foo")
      ∧ (run sampleEnv (new (utf16 "#e:run:foo")).commands []).failure = none
      ∧ (perform sampleEnv Operation.runOnce (new (utf16 "#e:run:foo"), [])).1.commands = [] :=
  have hne : (perform sampleEnv Operation.runOnce (new (utf16 "#e:run:foo"), [])).1
      ≠ new (utf16 "#e:run:foo") := by
    have h1 : (perform sampleEnv Operation.runOnce (new (utf16 "#e:run:foo"), [])).1 = ⟨[]⟩ := by
      rfl
    rw [h1, new_foo]
    intro h
    have h2 := congrArg HashCommands.commands h
    simp at h2
  ⟨hne, ((C20_pending_sequence_frame sampleEnv).2.2.2.2.2.1 Operation.runOnce
    (new (utf16 "#e:run:foo")) [] hne).2⟩

end HashCommands

/-! ## Checks of the definitions on concrete inputs -/

example : split cAmp (utf16 "a&b&&c") = [utf16 "a", utf16 "b", [], utf16 "c"] := by decide
example : split cAmp (utf16 "") = [[]] := by decide
example : utf16 "e:run" = [101, 58, 114, 117, 110] := by decide
example : decodeURI (utf16 "%7B%22x%22%3A1%7D") = some (utf16 "\x7b\"x\"%3A1\x7d") := by decide
example : decodeURI (utf16 "%7B%22x%22:1%7D") = some (utf16 "\x7b\"x\":1\x7d") := by decide
example : decodeURI (utf16 "%E2%82%AC%F0%9F%98%80") = some (utf16 "€😀") := by decide
example : decodeURI (utf16 "%C0%80") = none := by decide
example : decodeURI (utf16 "%ED%A0%80") = none := by decide
example : decodeURI (utf16 "%") = none := by decide
example : decodeURI (utf16 "a%2") = none := by decide
example : decodeURI (utf16 "%80") = none := by decide
example : parseNumber (utf16 "1") = some ⟨false, 1, 0⟩ := by decide
example : parseNumber (utf16 "-12.50e+3") = some ⟨true, 125, 2⟩ := by decide
example : parseNumber (utf16 "01") = none := by decide
example : parseNumber (utf16 "1.") = none := by decide
example : parseNumber (utf16 "0.10") = some ⟨false, 1, -1⟩ := by decide
example : parseNumber (utf16 "100") = some ⟨false, 1, 2⟩ := by decide
example : parseNumber (utf16 "-0") = some ⟨true, 0, 0⟩ := by decide
example : parseNumber (utf16 "-") = none := by decide
example : parseNumber (utf16 "1e") = none := by decide
example : parseNumber (utf16 "1x") = none := by decide
example : JSON.parse (utf16 "\x7b\x7d") = some JSON.empty := by rfl
example : JSON.parse (utf16 "\x7b\"x\":1\x7d") = some (JSON.object [(utf16 "x", JSON.number ⟨false, 1, 0⟩)]) := by rfl
example : JSON.parse (utf16 "\x7b\"x\"%3A1\x7d") = none := by rfl
example : JSON.parse (utf16 " [1, true,null , \"a\\n\\u00e9\", \x7b\"k\":[], \"k\": \x7b\x7d\x7d ] ") =
  some (JSON.array [JSON.number ⟨false, 1, 0⟩, JSON.bool true, JSON.null, JSON.string [97, 10, 233],
    JSON.object [(utf16 "k", JSON.empty)]]) := by rfl
example : JSON.parse (utf16 "") = none := by rfl
example : JSON.parse (utf16 "5") = some (JSON.number ⟨false, 5, 0⟩) := by rfl
example : JSON.parse (utf16 "[1,]") = none := by rfl
example : JSON.parse (utf16 "\x7b\"a\":1,\x7d") = none := by rfl
example : JSON.parse (utf16 "\x7b\"a\":1\x7d?x") = none := by rfl
example : JSON.parse (utf16 "1 2") = none := by rfl
example : JSON.parse (utf16 "[1 2]") = none := by rfl
example : JSON.parse (utf16 "\"a") = none := by rfl
example : JSON.parse (utf16 "[") = none := by rfl
example : JSON.parse (utf16 "]") = none := by rfl
example : JSON.parse (utf16 "\x7b\"a\" 1\x7d") = none := by rfl
example : JSON.parse (utf16 "\x7b 1:2 \x7d") = none := by rfl
example : JSON.parse (utf16 "nul") = none := by rfl
example : JSON.parse (utf16 "\"\\ud83d\"") = some (JSON.string [55357]) := by rfl
example : JSON.parse (utf16 "\x7b\"a\":\x7b\"b\":[1,\x7b\"c\":null\x7d]\x7d\x7d") =
  some (JSON.object [(utf16 "a", JSON.object [(utf16 "b",
    JSON.array [JSON.number ⟨false, 1, 0⟩, JSON.object [(utf16 "c", JSON.null)]])])]) := by rfl
example : JSON.parse (utf16 "\x7b\"a\":1,\"b\":2,\"a\":3\x7d") =
  some (JSON.object [(utf16 "a", JSON.number ⟨false, 3, 0⟩), (utf16 "b", JSON.number ⟨false, 2, 0⟩)]) := by rfl
example : JSON.parse (utf16 "[[[]]]") = some (JSON.array [JSON.array [JSON.array []]]) := by rfl
example : JSON.parse (utf16 "\t[ 1.5e1 ,\n-2 ]\r") =
  some (JSON.array [JSON.number ⟨false, 15, 0⟩, JSON.number ⟨true, 2, 0⟩]) := by rfl
example : JSON.parse (utf16 "[,1]") = none := by rfl
example : JSON.parse (utf16 "\x7b,\x7d") = none := by rfl
example : JSON.parse (utf16 "[]]") = none := by rfl
example : JSON.parse (utf16 "\x7b\"a\":1\x7d\x7d") = none := by rfl
example : JSON.parse (utf16 "\x7b\"a\"\x7d") = none := by rfl
example : JSON.parse (utf16 "\x7b\"a\":\x7d") = none := by rfl
example : JSON.parse (utf16 ":") = none := by rfl
example : JSON.parse (utf16 "+1") = none := by rfl
example : JSON.parse (utf16 "NaN") = none := by rfl
example : JSON.parse (utf16 "\"\\x\"") = none := by rfl
example : JSON.parse (utf16 "\"a\nb\"") = none := by rfl
example : JSON.parse (utf16 "\"a\" \"b\"") = none := by rfl
example : JSON.parse (utf16 "[1\x7d") = none := by rfl
example : JSON.parse (utf16 "\"\\u12\"") = none := by rfl
example : JSON.parse (utf16 "true") = some (JSON.bool true) := by rfl
example : JSON.parse (utf16 "\"\"") = some (JSON.string []) := by rfl
example : decodeURI (utf16 "%41%2F%25%23%c3%a9é") = some (utf16 "A%2F%%23éé") := by decide
example : decodeURI (utf16 "%C3") = none := by decide
example : decodeURI (utf16 "%C3A9") = none := by decide
example : decodeURI (utf16 "%F4%90%80%80") = none := by decide
example : decodeURI (utf16 "%E0%80%80") = none := by decide
example : decodeURI (utf16 "%F8%80%80%80%80") = none := by decide
example : decodeURI (utf16 "%G1") = none := by decide
example : HashCommands.get [] = [] := by rfl
example : HashCommands.get (utf16 "#") = [] := by rfl
example : HashCommands.get (utf16 "#e:run:foo?") = [⟨utf16 "e:run", utf16 "foo", JSON.empty⟩] := by rfl
example : HashCommands.get (utf16 "#e:run:foo?5") = [⟨utf16 "e:run", utf16 "foo", JSON.number ⟨false, 5, 0⟩⟩] := by rfl
example : HashCommands.get (utf16 "#x:y:z") = [] := by rfl
example : HashCommands.get (utf16 "#e:run:foo&e:run&e:route:bar&&e:route:a:b") =
  [⟨utf16 "e:run", utf16 "foo", JSON.empty⟩, ⟨utf16 "e:route", utf16 "bar", JSON.empty⟩] := by rfl
